import Mathlib

/-!
# Verification of `classroom_allocation.py`

A shallow embedding of the classroom-allocation optimizer: the entity model
(`Room`, `Person`, `Course`), the travel-cost model (`travel_cost`), and the
three allocators (`greedy_allocate`, `local_search`, `genetic_allocate`),
together with theorems settling the specification claims.

Embedding conventions:
* Python `float` coordinates are modelled as `ℚ × ℚ`.  The source's
  `euclidean` (`math.dist`, a floating-point square root) is modelled as an
  abstract distance function `dist : Point → Point → ℚ` passed to every
  definition that the source lets call `euclidean`; every claim below is
  either independent of the actual distance values or quantified over `dist`.
* Python exceptions are modelled with `Except Err`: `RuntimeError` in
  `greedy_allocate` (`Err.infeasible`), `ZeroDivisionError` in `travel_cost`
  (`Err.divByZero`), `KeyError` on dict lookups, `IndexError` on list
  indexing and on `random.choice` from an empty sequence, and `ValueError`
  from `min` of an empty sequence, `randrange` with an empty range, or
  `random.sample` with a sample larger than the population.
* Python dicts are association lists (`aGet` / `aSet`), with `aSet`
  overwriting in place as dict assignment does.
* Randomness is modelled by explicit oracles.  `random.sample(students, k)`
  inside `travel_cost` is modelled by a `sampler : Course → List Person`
  argument giving the drawn sample; the sampling branch is taken only for
  rosters above the cap of 30, and every theorem below is either restricted
  to exact mode (roster within the cap, where the sample is never consulted)
  or quantified over all samplers.  The strategy-level random draws of
  `local_search` and `genetic_allocate` (`random.sample` of two courses,
  tournament draws, `rng.random()`, `rng.randrange`, `rng.choice`) are
  likewise oracle arguments, quantified over in every theorem; index-valued
  oracles are reduced modulo the relevant length so that each oracle value
  denotes a legal draw.
* Mutable state is passed explicitly: `greedy_allocate` threads the room
  list (it writes `room.schedule`), and `local_search` threads the pair
  (current mapping, room table) that the loop body can see, returning both.
-/

-- The Batteries rational-number operations are sealed (`@[irreducible]`);
-- unseal them so that concrete runs of the embedded algorithms can be
-- evaluated by `decide` inside witnesses and counterexamples.
unseal Rat.add Rat.mul Rat.sub Rat.inv

set_option maxRecDepth 4096

namespace ClassroomAllocation

/-- Campus-plane coordinate `(x, y)`; the source uses a pair of floats. -/
abbrev Point := ℚ × ℚ

/-- `Person` dataclass: identifier and 2D coordinate. -/
structure Person where
  id : String
  coord : Point
deriving DecidableEq

/-- `Room` dataclass: identifier, capacity, coordinate and the occupancy
table `schedule : timeslot -> course_id` (a Python dict, modelled as an
association list). -/
structure Room where
  id : String
  capacity : ℤ
  coord : Point
  schedule : List (ℤ × String)
deriving DecidableEq

/-- `Course` dataclass: identifier, size (headcount), teacher, enrolled
students and a single timeslot. -/
structure Course where
  id : String
  size : ℤ
  teacher : Person
  students : List Person
  timeslot : ℤ
deriving DecidableEq

/-- The Python exceptions the module can raise. -/
inductive Err where
  /-- `RuntimeError(f"Sem sala disponível para disciplina {course.id} no horário {course.timeslot}")`
  raised by `greedy_allocate`; carries the offending course id and timeslot. -/
  | infeasible (courseId : String) (timeslot : ℤ)
  /-- `ZeroDivisionError` from `len(course.students) / k` with `k = 0` in `travel_cost`. -/
  | divByZero
  /-- `KeyError` from a dict lookup. -/
  | keyError
  /-- `IndexError` from `random.choice` / `rng.choice` on an empty sequence. -/
  | emptyChoice
  /-- `IndexError` from list indexing out of range. -/
  | indexError
  /-- `ValueError` from `min()` of an empty sequence. -/
  | emptyMin
  /-- `ValueError` from `randrange` with an empty range. -/
  | emptyRange
  /-- `ValueError` from `random.sample` with sample size above the population. -/
  | sampleTooLarge
deriving DecidableEq

instance exceptDecEq {ε α : Type} [DecidableEq ε] [DecidableEq α] :
    DecidableEq (Except ε α) := fun a b =>
  match a, b with
  | .error e, .error f =>
      match decEq e f with
      | isTrue h => isTrue (h ▸ rfl)
      | isFalse h => isFalse (fun hh => h (Except.error.inj hh))
  | .ok x, .ok y =>
      match decEq x y with
      | isTrue h => isTrue (h ▸ rfl)
      | isFalse h => isFalse (fun hh => h (Except.ok.inj hh))
  | .error _, .ok _ => isFalse (fun hh => Except.noConfusion hh)
  | .ok _, .error _ => isFalse (fun hh => Except.noConfusion hh)

/-- Allocation mapping `course_id -> room_id` (a Python dict). -/
abbrev Alloc := List (String × String)

/-- The room lookup `Dict[str, Room]` passed to `local_search`. -/
abbrev RoomTable := List (String × Room)

/-- Dict lookup: first binding of the key, if any. -/
def aGet {κ β : Type} [DecidableEq κ] : List (κ × β) → κ → Option β
  | [], _ => none
  | (k', v) :: rest, k => if k = k' then some v else aGet rest k

/-- Dict assignment `d[k] = v`: overwrite the existing binding in place, or
append a new one (Python dicts keep insertion order). -/
def aSet {κ β : Type} [DecidableEq κ] : List (κ × β) → κ → β → List (κ × β)
  | [], k, v => [(k, v)]
  | (k', v') :: rest, k, v =>
      if k = k' then (k, v) :: rest else (k', v') :: aSet rest k v

/-- Total list indexer with a default, used to model Python indexing at
positions that are known to be in range. -/
def nth {α : Type} : List α → ℕ → α → α
  | [], _, d => d
  | x :: _, 0, _ => x
  | _ :: xs, n+1, d => nth xs n d

/-- `Room.is_available`: `timeslot not in self.schedule and self.capacity >= size`. -/
def Room.is_available (r : Room) (timeslot : ℤ) (size : ℤ) : Bool :=
  (aGet r.schedule timeslot).isNone && decide (size ≤ r.capacity)

/-- Student-sample cap in `travel_cost` (`k = min(30, len(course.students))`). -/
def sampleCap : ℕ := 30

/-- `travel_cost(course, room)`: teacher distance plus the students' summed
distance, sampled at up to `sampleCap` students and scaled by
`len(students) / k`.  With an empty roster `k = 0` and the scaling division
raises `ZeroDivisionError`. -/
def travel_cost (dist : Point → Point → ℚ) (sampler : Course → List Person)
    (course : Course) (room : Room) : Except Err ℚ :=
  let teacher_cost := dist course.teacher.coord room.coord
  let n := course.students.length
  let k := min sampleCap n
  let sample := if k < n then sampler course else course.students
  if k = 0 then .error .divByZero
  else .ok (teacher_cost +
    ((sample.map (fun s => dist s.coord room.coord)).sum) * ((n : ℚ) / (k : ℚ)))

/-- The value `travel_cost` returns whenever it does not raise (that is,
whenever the roster is nonempty); used to phrase the pure replays. -/
def travel_costP (dist : Point → Point → ℚ) (sampler : Course → List Person)
    (course : Course) (room : Room) : ℚ :=
  let teacher_cost := dist course.teacher.coord room.coord
  let n := course.students.length
  let k := min sampleCap n
  let sample := if k < n then sampler course else course.students
  teacher_cost +
    ((sample.map (fun s => dist s.coord room.coord)).sum) * ((n : ℚ) / (k : ℚ))

/-! ## Python `min(..., key=...)` -/

/-- Loop of CPython's `min` with a `key`: keep the current best and its key,
replace only on a strictly smaller key (so ties keep the earliest element);
a raising key aborts the whole call. -/
def pyMinGo {α : Type} (key : α → Except Err ℚ) : α → ℚ → List α → Except Err α
  | best, _, [] => .ok best
  | best, bk, x :: xs => do
      let kx ← key x
      if kx < bk then pyMinGo key x kx xs else pyMinGo key best bk xs

/-- `min(l, key=key)`: `ValueError` on an empty sequence, otherwise the first
element attaining the minimal key. -/
def pyMin {α : Type} (key : α → Except Err ℚ) : List α → Except Err α
  | [] => .error .emptyMin
  | x :: xs => do
      let kx ← key x
      pyMinGo key x kx xs

/-- Pure variant of `pyMinGo` for non-raising keys. -/
def pyMinPGo {α : Type} (key : α → ℚ) : α → ℚ → List α → α
  | best, _, [] => best
  | best, bk, x :: xs =>
      if key x < bk then pyMinPGo key x (key x) xs else pyMinPGo key best bk xs

/-- Pure variant of `pyMin` on a nonempty list. -/
def pyMinP {α : Type} (key : α → ℚ) (x : α) (xs : List α) : α :=
  pyMinPGo key x (key x) xs

/-! ## Greedy allocator -/

/-- Placeholder room for in-range `List.getD` lookups. -/
def roomJunk : Room := ⟨"", 0, (0, 0), []⟩

/-- Stable insertion into a sorted list: the new element, which originates
earlier in the input than everything already inserted, is placed before the
first element it `le`-precedes (so ties keep input order).  A structurally
recursive stable sort is used so that concrete runs reduce inside the
kernel. -/
def insertBy {α : Type} (le : α → α → Bool) (x : α) : List α → List α
  | [] => [x]
  | y :: ys => if le x y then x :: y :: ys else y :: insertBy le x ys

/-- Stable sort by `le` (insertion sort, folding from the right). -/
def sortByStable {α : Type} (le : α → α → Bool) : List α → List α
  | [] => []
  | x :: xs => insertBy le x (sortByStable le xs)

/-- `sorted(courses, key=lambda c: c.size, reverse=True)`: stable descending
sort by size. -/
def sortBySizeDesc (courses : List Course) : List Course :=
  sortByStable (fun a b => decide (b.size ≤ a.size)) courses

/-- The loop of `greedy_allocate`, threading the mutated room list (rooms
are addressed by position, which models Python object identity) and the
accumulating allocation dict. -/
def greedyGo (dist : Point → Point → ℚ) (sampler : Course → List Person) :
    List Course → List Room → Alloc → Except Err (Alloc × List Room)
  | [], rooms, allocation => .ok (allocation, rooms)
  | course :: rest, rooms, allocation =>
      match (List.range rooms.length).filter
          (fun i => (nth rooms i roomJunk).is_available course.timeslot course.size) with
      | [] => .error (.infeasible course.id course.timeslot)
      | i :: is => do
          let j ← pyMin (fun i => travel_cost dist sampler course (nth rooms i roomJunk)) (i :: is)
          let r := nth rooms j roomJunk
          greedyGo dist sampler rest
            (rooms.set j { r with schedule := aSet r.schedule course.timeslot course.id })
            (aSet allocation course.id r.id)

/-- `greedy_allocate(courses, rooms)`: first-fit-decreasing over the
size-sorted courses; returns the mapping together with the mutated rooms. -/
def greedy_allocate (dist : Point → Point → ℚ) (sampler : Course → List Person)
    (courses : List Course) (rooms : List Room) : Except Err (Alloc × List Room) :=
  greedyGo dist sampler (sortBySizeDesc courses) rooms []

/-- Pure replay of the spec's infeasibility condition: "processing courses in
descending-size order, some course at its turn has every room either occupied
at that course's time-slot or of capacity less than the course's size", with
occupancy evolving by committing each placed course to its chosen
(travel-cost-minimizing) room, per spec §4.2. -/
def specGreedyStuck (dist : Point → Point → ℚ) (sampler : Course → List Person) :
    List Course → List Room → Bool
  | [], _ => false
  | course :: rest, rooms =>
      match (List.range rooms.length).filter
          (fun i => (nth rooms i roomJunk).is_available course.timeslot course.size) with
      | [] => true
      | i :: is =>
          let j := pyMinP (fun i => travel_costP dist sampler course (nth rooms i roomJunk)) i is
          let r := nth rooms j roomJunk
          specGreedyStuck dist sampler rest
            (rooms.set j { r with schedule := aSet r.schedule course.timeslot course.id })

/-- The spec-side infeasibility condition for `greedy_allocate`. -/
def specGreedyInfeasible (dist : Point → Point → ℚ) (sampler : Course → List Person)
    (courses : List Course) (rooms : List Room) : Bool :=
  specGreedyStuck dist sampler (sortBySizeDesc courses) rooms

/-- The combined capacity/occupancy invariant for the greedy loop: every
allocated course points (by position) to a room with enough capacity whose
occupancy table records the course at its time-slot. -/
def capInv (allCourses : List Course) (rooms : List Room) (m : Alloc) : Prop :=
  ∀ c ∈ allCourses, ∀ rid, aGet m c.id = some rid →
    ∃ p, p < rooms.length ∧ (nth rooms p roomJunk).id = rid ∧
      c.size ≤ (nth rooms p roomJunk).capacity ∧
      aGet (nth rooms p roomJunk).schedule c.timeslot = some c.id

/-! ## Concrete inputs used in counterexamples and witnesses -/

/-- Zero distance function: a legal instantiation of the abstract distance. -/
def distZero : Point → Point → ℚ := fun _ _ => 0

/-- Sampler that never returns anything (legal whenever sampling is not hit). -/
def samplerNil : Course → List Person := fun _ => []

def personT : Person := ⟨"t", (0, 0)⟩

def studentS : Person := ⟨"s", (1, 0)⟩

/-- A course with an empty roster. -/
def courseEmptyRoster : Course := ⟨"c", 1, personT, [], 0⟩

/-- A one-student course. -/
def course1 : Course := ⟨"c", 1, personT, [studentS], 0⟩

/-- A room large enough for `course1` / `courseEmptyRoster`. -/
def roomBig : Room := ⟨"r", 5, (0, 0), []⟩

/-! ## Local search -/

/-- Placeholder course for in-range `nth` lookups. -/
def courseJunk : Course := ⟨"", 0, ⟨"", (0, 0)⟩, [], 0⟩

/-- A Python dict lookup: `KeyError` when the key is absent. -/
def lookupE {β : Type} : Option β → Except Err β
  | some b => .ok b
  | none => .error .keyError

/-- `cost_of_alloc` inside `local_search`: sum of `travel_cost` over all
courses at their allocated rooms, with `KeyError` on a missing mapping or
room. -/
def cost_of_alloc (dist : Point → Point → ℚ) (sampler : Course → List Person)
    (rooms : RoomTable) (alloc : Alloc) : List Course → Except Err ℚ
  | [] => .ok 0
  | c :: rest => do
      let rid ← lookupE (aGet alloc c.id)
      let room ← lookupE (aGet rooms rid)
      let tc ← travel_cost dist sampler c room
      let restCost ← cost_of_alloc dist sampler rooms alloc rest
      .ok (tc + restCost)

/-- One iteration of `local_search`'s loop.  The loop state is the pair
(current mapping, room table); the body reads both but writes only the
mapping.  `pick` gives the positions of the two distinct courses drawn by
`random.sample(courses, 2)` (which raises `ValueError` when there are fewer
than two courses). -/
def ls_iter (dist : Point → Point → ℚ) (sampler : Course → List Person)
    (courses : List Course) (pick : ℕ × ℕ) (st : Alloc × RoomTable) :
    Except Err (Alloc × RoomTable) :=
  if courses.length < 2 then .error .sampleTooLarge
  else
    let c1 := nth courses pick.1 courseJunk
    let c2 := nth courses pick.2 courseJunk
    if c1.timeslot ≠ c2.timeslot then .ok st
    else do
      let rid1 ← lookupE (aGet st.1 c1.id)
      let r1 ← lookupE (aGet st.2 rid1)
      let rid2 ← lookupE (aGet st.1 c2.id)
      let r2 ← lookupE (aGet st.2 rid2)
      if r1.capacity < c2.size ∨ r2.capacity < c1.size then .ok st
      else do
        let w ← travel_cost dist sampler c1 r2
        let x ← travel_cost dist sampler c2 r1
        let y ← travel_cost dist sampler c1 r1
        let z ← travel_cost dist sampler c2 r2
        if w + x - y - z < 0 then
          .ok (aSet (aSet st.1 c1.id r2.id) c2.id r1.id, st.2)
        else .ok st

/-- The `for _ in range(max_iter)` loop of `local_search`; `t` is the
iteration counter indexing the oracle of sampled course pairs. -/
def lsLoop (dist : Point → Point → ℚ) (sampler : Course → List Person)
    (courses : List Course) (picks : ℕ → ℕ × ℕ) :
    ℕ → ℕ → Alloc × RoomTable → Except Err (Alloc × RoomTable)
  | _, 0, st => .ok st
  | t, n+1, st => do
      let st' ← ls_iter dist sampler courses (picks t) st
      lsLoop dist sampler courses picks (t+1) n st'

/-- `local_search(allocation, courses, rooms, max_iter)`.  The running
`current_cost` is written but never read by the loop, so only its initial
computation (which can raise) is retained.  Python's `allocation.copy()` is
embedded by passing the mapping by value; the function returns the final
mapping together with the room table the loop carried. -/
def local_search (dist : Point → Point → ℚ) (sampler : Course → List Person)
    (allocation : Alloc) (courses : List Course) (rooms : RoomTable)
    (picks : ℕ → ℕ × ℕ) (max_iter : ℕ) : Except Err (Alloc × RoomTable) := do
  let _currentCost ← cost_of_alloc dist sampler rooms allocation courses
  lsLoop dist sampler courses picks 0 max_iter (allocation, rooms)

/-- Replace every room's schedule in a room table (used to state that
`local_search` never reads schedules). -/
def mapSched (g : String → Room → List (ℤ × String)) (rooms : RoomTable) : RoomTable :=
  rooms.map (fun kv => (kv.1, { kv.2 with schedule := g kv.1 kv.2 }))

/-- Pure total cost of a mapping (the value `cost_of_alloc` returns when it
does not raise). -/
def roomOf (rooms : RoomTable) (m : Alloc) (c : Course) : Room :=
  match aGet m c.id with
  | some rid =>
      match aGet rooms rid with
      | some r => r
      | none => roomJunk
  | none => roomJunk

def costP (dist : Point → Point → ℚ) (sampler : Course → List Person)
    (courses : List Course) (rooms : RoomTable) (m : Alloc) : ℚ :=
  (courses.map (fun c => travel_costP dist sampler c (roomOf rooms m c))).sum

/-- All lookups `rooms[alloc[c.id]]` that `cost_of_alloc` performs succeed. -/
def lookupsOK (courses : List Course) (rooms : RoomTable) (m : Alloc) : Prop :=
  ∀ c ∈ courses, ∃ rid r, aGet m c.id = some rid ∧ aGet rooms rid = some r

/-! ## Local-search invariant preservation under one accepted swap -/

/-- Capacity validity of a mapping w.r.t. the room table (the C2 property
for `local_search`). -/
def capOKL (courses : List Course) (rooms : RoomTable) (m : Alloc) : Prop :=
  ∀ c ∈ courses, ∀ rid, aGet m c.id = some rid →
    ∃ r, aGet rooms rid = some r ∧ c.size ≤ r.capacity

/-- No two distinct same-slot courses are assigned the same room (the C3
property). -/
def noDouble (courses : List Course) (m : Alloc) : Prop :=
  ∀ c1 ∈ courses, ∀ c2 ∈ courses, c1.timeslot = c2.timeslot →
    ∀ rid, aGet m c1.id = some rid → aGet m c2.id = some rid → c1 = c2

/-! ## C8: exactness and stochasticity of the cost model -/

/-- 31 students on the x-axis: a roster one above the sample cap. -/
def bigRoster : List Person := (List.range 31).map (fun i => ⟨"s", ((i : ℚ), 0)⟩)

/-- A course whose roster exceeds the sample cap. -/
def courseBig : Course := ⟨"cb", 31, ⟨"t", (0, 0)⟩, bigRoster, 0⟩

/-- Distance function projecting the first point's x-coordinate (a legal
instantiation of the abstract distance that separates the two samples). -/
def distX : Point → Point → ℚ := fun p _ => p.1

/-- Sample consisting of the 30 students nearest the origin. -/
def samplerLow : Course → List Person := fun _ => bigRoster.take 30

/-- Sample consisting of the 30 students farthest from the origin. -/
def samplerHigh : Course → List Person := fun _ => bigRoster.drop 1

/-! ## Genetic algorithm -/

/-- Oracle for the random draws of `genetic_allocate`: the seeded
`rng = random.Random(42)` (initialisation, crossover, cut positions,
mutation) and the module-level `random` used for tournament sampling.  The
first index is the chromosome/generation, the second the position of the
draw inside it; index-valued entries are reduced modulo the relevant length
so that every oracle denotes a legal draw. -/
structure GenOracle where
  initChoice : ℕ → ℕ → ℕ
  tour : ℕ → ℕ → ℕ × ℕ
  cross : ℕ → ℕ → ℚ
  cut : ℕ → ℕ → ℕ
  mutP : ℕ → ℕ → ℚ
  mutIdx : ℕ → ℕ → ℕ
  mutChoice : ℕ → ℕ → ℕ

/-- `rng.choice(seq)`: `IndexError` on an empty sequence. -/
def pyChoice {α : Type} (o : ℕ) : List α → Except Err α
  | [] => .error .emptyChoice
  | x :: xs => .ok (nth (x :: xs) (o % (xs.length + 1)) x)

/-- `rng.randrange(lo, hi)`: `ValueError` on an empty range, otherwise a
value in `[lo, hi)`. -/
def pyRandrange (o lo hi : ℕ) : Except Err ℕ :=
  if lo < hi then .ok (lo + o % (hi - lo)) else .error .emptyRange

/-- `random.sample(l, 2)`: `ValueError` when the population has fewer than
two elements, otherwise two distinct-position draws. -/
def pySample2 {α : Type} (o : ℕ × ℕ) (l : List α) (d : α) : Except Err (α × α) :=
  if l.length < 2 then .error .sampleTooLarge
  else
    let i := o.1 % l.length
    let j0 := o.2 % (l.length - 1)
    let j := if j0 < i then j0 else j0 + 1
    .ok (nth l i d, nth l j d)

/-- Python list indexing (`IndexError` when out of range). -/
def idxE {α : Type} : List α → ℕ → Except Err α
  | [], _ => .error .indexError
  | x :: _, 0 => .ok x
  | _ :: xs, n+1 => idxE xs n

/-- One course's feasible-room index list
(`r.capacity >= course.size and course.timeslot not in r.schedule`, against
the original occupancy snapshot). -/
def feasibleFor (rooms : List Room) (course : Course) : List ℕ :=
  (List.range rooms.length).filter (fun i =>
    decide (course.size ≤ (nth rooms i roomJunk).capacity) &&
      (aGet (nth rooms i roomJunk).schedule course.timeslot).isNone)

/-- The precomputed per-course feasible-room index lists. -/
def feasible_rooms (courses : List Course) (rooms : List Room) : List (List ℕ) :=
  courses.map (feasibleFor rooms)

/-- `random_chrom()`: one gene per course, drawn by `rng.choice` from that
course's feasible list (`g` counts the gene position for the oracle). -/
def random_chromGo (choice : ℕ → ℕ) : ℕ → List (List ℕ) → Except Err (List ℕ)
  | _, [] => .ok []
  | g, fr :: rest => do
      let gene ← pyChoice (choice g) fr
      let genes ← random_chromGo choice (g+1) rest
      .ok (gene :: genes)

def random_chrom (choice : ℕ → ℕ) (feasible : List (List ℕ)) : Except Err (List ℕ) :=
  random_chromGo choice 0 feasible

/-- `population = [random_chrom() for _ in range(pop_size)]`. -/
def initPopGo (oracle : GenOracle) (feasible : List (List ℕ)) :
    ℕ → ℕ → Except Err (List (List ℕ))
  | _, 0 => .ok []
  | c, n+1 => do
      let ch ← random_chrom (oracle.initChoice c) feasible
      let rest ← initPopGo oracle feasible (c+1) n
      .ok (ch :: rest)

def initPop (oracle : GenOracle) (feasible : List (List ℕ)) (pop_size : ℕ) :
    Except Err (List (List ℕ)) :=
  initPopGo oracle feasible 0 pop_size

/-- `fitness(chrom) = sum(travel_cost(courses[i], rooms[idx]) for i, idx in
enumerate(chrom))`. -/
def fitnessGo (dist : Point → Point → ℚ) (sampler : Course → List Person)
    (courses : List Course) (rooms : List Room) : ℕ → List ℕ → Except Err ℚ
  | _, [] => .ok 0
  | i, gene :: rest => do
      let c ← idxE courses i
      let r ← idxE rooms gene
      let tc ← travel_cost dist sampler c r
      let restv ← fitnessGo dist sampler courses rooms (i+1) rest
      .ok (tc + restv)

def fitness (dist : Point → Point → ℚ) (sampler : Course → List Person)
    (courses : List Course) (rooms : List Room) (chrom : List ℕ) : Except Err ℚ :=
  fitnessGo dist sampler courses rooms 0 chrom

/-- Pure value of `fitness` on a defined chromosome. -/
def fitPGo (dist : Point → Point → ℚ) (sampler : Course → List Person)
    (courses : List Course) (rooms : List Room) : ℕ → List ℕ → ℚ
  | _, [] => 0
  | i, gene :: rest =>
      travel_costP dist sampler (nth courses i courseJunk) (nth rooms gene roomJunk) +
        fitPGo dist sampler courses rooms (i+1) rest

def fitP (dist : Point → Point → ℚ) (sampler : Course → List Person)
    (courses : List Course) (rooms : List Room) (chrom : List ℕ) : ℚ :=
  fitPGo dist sampler courses rooms 0 chrom

/-- Tournament selection: `parents = [min(random.sample(population, 2),
key=fitness) for _ in range(pop_size)]`. -/
def selGo (fit : List ℕ → Except Err ℚ) (tour : ℕ → ℕ × ℕ)
    (pop : List (List ℕ)) : ℕ → ℕ → Except Err (List (List ℕ))
  | _, 0 => .ok []
  | s, n+1 => do
      let pair ← pySample2 (tour s) pop []
      let p ← pyMin fit [pair.1, pair.2]
      let rest ← selGo fit tour pop (s+1) n
      .ok (p :: rest)

def selectParents (fit : List ℕ → Except Err ℚ) (tour : ℕ → ℕ × ℕ)
    (pop : List (List ℕ)) (pop_size : ℕ) : Except Err (List (List ℕ)) :=
  selGo fit tour pop 0 pop_size

/-- Reproduction by consecutive pairs (`for i in range(0, pop_size, 2)`):
single-point crossover with probability `crossover_rate`, else cloning.  An
odd parent list raises `IndexError` on `parents[i + 1]`. -/
def reproduce (cross : ℕ → ℚ) (cutO : ℕ → ℕ) (crossover_rate : ℚ) (n_courses : ℕ) :
    ℕ → List (List ℕ) → Except Err (List (List ℕ))
  | _, [] => .ok []
  | _, [_] => .error .indexError
  | t, p1 :: p2 :: rest => do
      let pair ←
        if cross t < crossover_rate then do
          let cut ← pyRandrange (cutO t) 1 n_courses
          .ok (p1.take cut ++ p2.drop cut, p2.take cut ++ p1.drop cut)
        else .ok (p1, p2)
      let restOff ← reproduce cross cutO crossover_rate n_courses (t+1) rest
      .ok (pair.1 :: pair.2 :: restOff)

/-- Mutation: with probability `mutation_rate` replace one random gene with
a fresh draw from its feasible list. -/
def mutate (mutO : ℕ → ℚ) (mutIdxO : ℕ → ℕ) (mutChoiceO : ℕ → ℕ)
    (mutation_rate : ℚ) (n_courses : ℕ) (feasible : List (List ℕ)) :
    ℕ → List (List ℕ) → Except Err (List (List ℕ))
  | _, [] => .ok []
  | t, chrom :: rest => do
      let chrom' ←
        if mutO t < mutation_rate then do
          let idx ← pyRandrange (mutIdxO t) 0 n_courses
          let g ← pyChoice (mutChoiceO t) (nth feasible idx [])
          .ok (chrom.set idx g)
        else .ok chrom
      let rest' ← mutate mutO mutIdxO mutChoiceO mutation_rate n_courses feasible (t+1) rest
      .ok (chrom' :: rest')

/-- `population.sort(key=fitness)`: compute each key once in list order,
then stable-sort ascending by key. -/
def keyedList (fit : List ℕ → Except Err ℚ) : List (List ℕ) →
    Except Err (List (ℚ × List ℕ))
  | [] => .ok []
  | c :: rest => do
      let f ← fit c
      let ks ← keyedList fit rest
      .ok ((f, c) :: ks)

def sortByFitness (fit : List ℕ → Except Err ℚ) (pop : List (List ℕ)) :
    Except Err (List (List ℕ)) := do
  let keyed ← keyedList fit pop
  .ok ((sortByStable (fun a b => decide (a.1 ≤ b.1)) keyed).map (fun kv => kv.2))

/-- One generation: tournament selection, pairwise reproduction, mutation,
then replacement (`population.extend(offspring); sort; truncate`). -/
def gen_step (dist : Point → Point → ℚ) (sampler : Course → List Person)
    (courses : List Course) (rooms : List Room) (feasible : List (List ℕ))
    (oracle : GenOracle) (pop_size : ℕ) (crossover_rate mutation_rate : ℚ)
    (g : ℕ) (pop : List (List ℕ)) : Except Err (List (List ℕ)) := do
  let parents ← selectParents (fitness dist sampler courses rooms) (oracle.tour g)
      pop pop_size
  let offspring ← reproduce (oracle.cross g) (oracle.cut g) crossover_rate
      courses.length 0 parents
  let mutated ← mutate (oracle.mutP g) (oracle.mutIdx g) (oracle.mutChoice g)
      mutation_rate courses.length feasible 0 offspring
  let sorted ← sortByFitness (fitness dist sampler courses rooms) (pop ++ mutated)
  .ok (sorted.take pop_size)

/-- `for _ in range(generations): ...`. -/
def evolve (dist : Point → Point → ℚ) (sampler : Course → List Person)
    (courses : List Course) (rooms : List Room) (feasible : List (List ℕ))
    (oracle : GenOracle) (pop_size : ℕ) (crossover_rate mutation_rate : ℚ) :
    ℕ → ℕ → List (List ℕ) → Except Err (List (List ℕ))
  | _, 0, pop => .ok pop
  | g, n+1, pop => do
      let pop' ← gen_step dist sampler courses rooms feasible oracle pop_size
          crossover_rate mutation_rate g pop
      evolve dist sampler courses rooms feasible oracle pop_size
        crossover_rate mutation_rate (g+1) n pop'

/-- `{course.id: rooms[idx].id for course, idx in zip(courses, best)}`. -/
def buildAllocGo (rooms : List Room) : List Course → List ℕ → Alloc → Except Err Alloc
  | [], _, acc => .ok acc
  | _, [], acc => .ok acc
  | c :: cs, g :: gs, acc => do
      let r ← idxE rooms g
      buildAllocGo rooms cs gs (aSet acc c.id r.id)

/-- `genetic_allocate(courses, rooms, pop_size, generations, crossover_rate,
mutation_rate)`. -/
def genetic_allocate (dist : Point → Point → ℚ) (sampler : Course → List Person)
    (oracle : GenOracle) (courses : List Course) (rooms : List Room)
    (pop_size generations : ℕ) (crossover_rate mutation_rate : ℚ) :
    Except Err Alloc := do
  let feasible := feasible_rooms courses rooms
  let population ← initPop oracle feasible pop_size
  let finalPop ← evolve dist sampler courses rooms feasible oracle pop_size
      crossover_rate mutation_rate 0 generations population
  let best ← pyMin (fitness dist sampler courses rooms) finalPop
  buildAllocGo rooms courses best []

/-! ## Genetic algorithm: gene validity and structural lemmas -/

/-- Gene validity: each gene lies in its course's feasible list. -/
def ValidChrom (feasible : List (List ℕ)) (chrom : List ℕ) : Prop :=
  List.Forall₂ (fun g fr => g ∈ fr) chrom feasible

/-- `min` over a nonempty list of rationals (`Option`-valued for `[]`). -/
def listMinQ : List ℚ → Option ℚ
  | [] => none
  | x :: xs => some (xs.foldl min x)

/-! ## Concrete genetic inputs -/

/-- The all-zero oracle: every random draw takes the first legal value. -/
def oracleZero : GenOracle :=
  ⟨fun _ _ => 0, fun _ _ => (0, 0), fun _ _ => 0, fun _ _ => 0, fun _ _ => 0,
   fun _ _ => 0, fun _ _ => 0⟩

/-- A course too large for every room (its feasible-room list is empty). -/
def courseHuge : Course := ⟨"ch", 100, personT, [studentS], 0⟩

/-! ## Theorems -/

theorem nth_set_self {α : Type} : ∀ (l : List α) (j : ℕ) (a d : α), j < l.length →
    nth (l.set j a) j d = a
  | [], j, _, _, h => absurd h (by simp)
  | _ :: _, 0, _, _, _ => rfl
  | _ :: xs, j+1, a, d, h => nth_set_self xs j a d (by simpa using h)

theorem nth_set_ne {α : Type} : ∀ (l : List α) (i j : ℕ) (a d : α), i ≠ j →
    nth (l.set i a) j d = nth l j d
  | [], _, _, _, _, _ => rfl
  | _ :: _, 0, 0, _, _, h => absurd rfl h
  | _ :: _, 0, _+1, _, _, _ => rfl
  | _ :: _, _+1, 0, _, _, _ => rfl
  | _ :: xs, i+1, j+1, a, d, h => nth_set_ne xs i j a d (fun he => h (by rw [he]))

theorem nth_mem {α : Type} : ∀ (l : List α) (n : ℕ) (d : α), n < l.length → nth l n d ∈ l
  | [], _, _, h => absurd h (by simp)
  | x :: _, 0, _, _ => List.mem_cons_self x _
  | _ :: xs, n+1, d, h => List.mem_cons_of_mem _ (nth_mem xs n d (by simpa using h))

theorem travel_cost_eq_ok (dist : Point → Point → ℚ) (sampler : Course → List Person)
    (course : Course) (room : Room) (h : course.students ≠ []) :
    travel_cost dist sampler course room =
      .ok (travel_costP dist sampler course room) := by
  have hn : 0 < course.students.length := List.length_pos.mpr h
  have hk : min sampleCap course.students.length ≠ 0 := by
    have : 0 < min sampleCap course.students.length :=
      lt_min (by simp [sampleCap]) hn
    omega
  simp [travel_cost, travel_costP, hk]

theorem travel_cost_error_iff (dist : Point → Point → ℚ) (sampler : Course → List Person)
    (course : Course) (room : Room) :
    (∃ e, travel_cost dist sampler course room = .error e) ↔ course.students = [] := by
  constructor
  · rintro ⟨e, he⟩
    by_contra hne
    rw [travel_cost_eq_ok dist sampler course room hne] at he
    exact Except.noConfusion he
  · intro h
    refine ⟨.divByZero, ?_⟩
    simp [travel_cost, h]

/-- In exact mode (roster within the cap) the sampling branch is never
taken and the scale factor is `n / n = 1`. -/
theorem travel_costP_exact (dist : Point → Point → ℚ) (sampler : Course → List Person)
    (course : Course) (room : Room)
    (h1 : 1 ≤ course.students.length) (h2 : course.students.length ≤ sampleCap) :
    travel_costP dist sampler course room =
      dist course.teacher.coord room.coord +
        (course.students.map (fun s => dist s.coord room.coord)).sum := by
  have hk : min sampleCap course.students.length = course.students.length :=
    min_eq_right h2
  have hlt : ¬ min sampleCap course.students.length < course.students.length := by omega
  have hne : (course.students.length : ℚ) ≠ 0 := by
    exact_mod_cast Nat.cast_ne_zero.mpr (show course.students.length ≠ 0 by omega)
  simp only [travel_costP, hlt, if_false]
  rw [hk]
  rw [div_self hne, mul_one]

@[simp] theorem exbind_ok {α β : Type} (a : α) (f : α → Except Err β) :
    (Except.ok a >>= f) = f a := rfl

@[simp] theorem exbind_error {α β : Type} (e : Err) (f : α → Except Err β) :
    ((Except.error e : Except Err α) >>= f) = Except.error e := rfl

theorem pyMinGo_eq_pure {α : Type} (key : α → Except Err ℚ) (kP : α → ℚ)
    (l : List α) : ∀ best bk, (∀ a ∈ l, key a = .ok (kP a)) →
    pyMinGo key best bk l = .ok (pyMinPGo kP best bk l) := by
  induction l with
  | nil => intro best bk _; rfl
  | cons x xs ih =>
      intro best bk h
      have hx : key x = .ok (kP x) := h x (List.mem_cons_self x xs)
      have hxs : ∀ a ∈ xs, key a = .ok (kP a) := fun a ha => h a (List.mem_cons_of_mem x ha)
      simp only [pyMinGo, pyMinPGo, hx, exbind_ok]
      by_cases hlt : kP x < bk
      · simp only [hlt, if_true, ih _ _ hxs]
      · simp only [hlt, if_false, ih _ _ hxs]

theorem pyMin_eq_pure {α : Type} (key : α → Except Err ℚ) (kP : α → ℚ)
    (x : α) (xs : List α) (h : ∀ a ∈ x :: xs, key a = .ok (kP a)) :
    pyMin key (x :: xs) = .ok (pyMinP kP x xs) := by
  have hx : key x = .ok (kP x) := h x (List.mem_cons_self x xs)
  simp only [pyMin, hx, exbind_ok, pyMinP]
  exact pyMinGo_eq_pure key kP xs x (kP x) (fun a ha => h a (List.mem_cons_of_mem x ha))

theorem pyMinGo_mem {α : Type} (key : α → Except Err ℚ) (l : List α) :
    ∀ best bk a, pyMinGo key best bk l = .ok a → a = best ∨ a ∈ l := by
  induction l with
  | nil => intro best bk a h; simp only [pyMinGo] at h; exact Or.inl (Except.ok.inj h).symm
  | cons x xs ih =>
      intro best bk a h
      simp only [pyMinGo] at h
      cases hk : key x with
      | error e => rw [hk] at h; simp only [exbind_error] at h; exact absurd h (by simp)
      | ok kx =>
          rw [hk] at h
          simp only [exbind_ok] at h
          by_cases hlt : kx < bk
          · rw [if_pos hlt] at h
            rcases ih x kx a h with h1 | h1
            · refine Or.inr ?_; rw [h1]; exact List.mem_cons_self x xs
            · exact Or.inr (List.mem_cons_of_mem x h1)
          · rw [if_neg hlt] at h
            rcases ih best bk a h with h1 | h1
            · exact Or.inl h1
            · exact Or.inr (List.mem_cons_of_mem x h1)

theorem pyMin_mem {α : Type} (key : α → Except Err ℚ) (l : List α) (a : α)
    (h : pyMin key l = .ok a) : a ∈ l := by
  cases l with
  | nil => exact absurd h (by simp [pyMin])
  | cons x xs =>
      simp only [pyMin] at h
      cases hk : key x with
      | error e => rw [hk] at h; simp only [exbind_error] at h; exact absurd h (by simp)
      | ok kx =>
          rw [hk] at h
          simp only [exbind_ok] at h
          rcases pyMinGo_mem key xs x kx a h with h1 | h1
          · rw [h1]; exact List.mem_cons_self x xs
          · exact List.mem_cons_of_mem x h1

theorem pyMin_head_error {α : Type} (key : α → Except Err ℚ) (x : α) (xs : List α)
    (e : Err) (h : key x = .error e) : pyMin key (x :: xs) = .error e := by
  simp [pyMin, h]

theorem pyMinPGo_mem {α : Type} (key : α → ℚ) (l : List α) :
    ∀ best bk, pyMinPGo key best bk l = best ∨ pyMinPGo key best bk l ∈ l := by
  induction l with
  | nil => intro best bk; exact Or.inl rfl
  | cons y ys ih =>
      intro best bk
      simp only [pyMinPGo]
      by_cases hlt : key y < bk
      · rw [if_pos hlt]
        rcases ih y (key y) with h1 | h1
        · refine Or.inr ?_; rw [h1]; exact List.mem_cons_self y ys
        · exact Or.inr (List.mem_cons_of_mem y h1)
      · rw [if_neg hlt]
        rcases ih best bk with h1 | h1
        · exact Or.inl h1
        · exact Or.inr (List.mem_cons_of_mem y h1)

theorem pyMinP_mem {α : Type} (key : α → ℚ) (x : α) (xs : List α) :
    pyMinP key x xs ∈ x :: xs := by
  rcases pyMinPGo_mem key xs x (key x) with h1 | h1
  · unfold pyMinP; rw [h1]; exact List.mem_cons_self x xs
  · exact List.mem_cons_of_mem x h1

theorem insertBy_perm {α : Type} (le : α → α → Bool) (x : α) :
    ∀ (l : List α), (insertBy le x l).Perm (x :: l)
  | [] => List.Perm.refl _
  | y :: ys => by
      rw [insertBy]
      by_cases h : le x y = true
      · rw [if_pos h]
      · rw [if_neg h]
        exact ((insertBy_perm le x ys).cons y).trans (List.Perm.swap x y ys)

theorem sortByStable_perm {α : Type} (le : α → α → Bool) :
    ∀ (l : List α), (sortByStable le l).Perm l
  | [] => List.Perm.refl _
  | x :: xs => by
      rw [sortByStable]
      exact (insertBy_perm le x (sortByStable le xs)).trans
        ((sortByStable_perm le xs).cons x)

/-! ## Dictionary and list helper lemmas -/

theorem aGet_aSet {κ β : Type} [DecidableEq κ] (m : List (κ × β)) (k k' : κ) (v : β) :
    aGet (aSet m k v) k' = if k' = k then some v else aGet m k' := by
  induction m with
  | nil => by_cases h : k' = k <;> simp [aSet, aGet, h]
  | cons p rest ih =>
      obtain ⟨k₀, v₀⟩ := p
      by_cases hk : k = k₀
      · subst hk
        by_cases h' : k' = k <;> simp [aSet, aGet, h']
      · by_cases h' : k' = k₀
        · subst h'
          have hne : ¬ k' = k := fun h => hk h.symm
          simp [aSet, aGet, if_neg hk, hne]
        · simp [aSet, aGet, if_neg hk, h', ih]

theorem aGet_aSet_self {κ β : Type} [DecidableEq κ] (m : List (κ × β)) (k : κ) (v : β) :
    aGet (aSet m k v) k = some v := by simp [aGet_aSet]

theorem aGet_aSet_ne {κ β : Type} [DecidableEq κ] (m : List (κ × β)) (k k' : κ) (v : β)
    (h : k' ≠ k) : aGet (aSet m k v) k' = aGet m k' := by simp [aGet_aSet, h]

/-- Members of a list with nodup images are separated by the map. -/
theorem nodup_map_inj {α β : Type} {f : α → β} {l : List α} (h : (l.map f).Nodup)
    {a b : α} (ha : a ∈ l) (hb : b ∈ l) (hf : f a = f b) : a = b := by
  induction l with
  | nil => cases ha
  | cons x xs ih =>
      simp only [List.map_cons, List.nodup_cons] at h
      rcases List.mem_cons.mp ha with rfl | ha' <;> rcases List.mem_cons.mp hb with rfl | hb'
      · rfl
      · exact absurd (hf ▸ List.mem_map_of_mem f hb') h.1
      · exact absurd (hf ▸ List.mem_map_of_mem f ha') h.1
      · exact ih h.2 ha' hb'

/-- If two lists agree under `map f`, their `nth` elements agree under `f`
at in-range positions. -/
theorem map_eq_nth {α β : Type} (f : α → β) :
    ∀ (l₁ l₂ : List α), l₁.map f = l₂.map f → ∀ (p : ℕ) (d : α), p < l₁.length →
    f (nth l₁ p d) = f (nth l₂ p d)
  | [], _, _, _, _, h => absurd h (by simp)
  | _ :: _, [], h, _, _, _ => by cases h
  | x :: xs, y :: ys, h, 0, d, _ => by
      simp only [List.map_cons, List.cons.injEq] at h
      exact h.1
  | x :: xs, y :: ys, h, p+1, d, hp => by
      simp only [List.map_cons, List.cons.injEq] at h
      exact map_eq_nth f xs ys h.2 p d (by simpa using hp)

/-- Replacing a list element by one with the same `f`-image leaves `map f`
unchanged. -/
theorem map_set_same {α β : Type} (f : α → β) :
    ∀ (l : List α) (j : ℕ) (a d : α), j < l.length → f a = f (nth l j d) →
    (l.set j a).map f = l.map f
  | [], _, _, _, h, _ => absurd h (by simp)
  | x :: xs, 0, a, d, _, hf => by
      simp only [List.set, List.map_cons]
      rw [show nth (x :: xs) 0 d = x from rfl] at hf
      rw [hf]
  | x :: xs, j+1, a, d, h, hf => by
      simp only [List.set, List.map_cons]
      rw [map_set_same f xs j a d (by simpa using h) hf]

/-! ## Greedy allocator: relation to the spec condition, and invariants -/

theorem greedyGo_nil_eq (dist : Point → Point → ℚ) (sampler : Course → List Person)
    (course : Course) (rest : List Course) (rooms : List Room) (alloc : Alloc)
    (hf : (List.range rooms.length).filter
      (fun i => (nth rooms i roomJunk).is_available course.timeslot course.size) = []) :
    greedyGo dist sampler (course :: rest) rooms alloc =
      .error (.infeasible course.id course.timeslot) := by
  rw [greedyGo, hf]

theorem greedyGo_cons_eq (dist : Point → Point → ℚ) (sampler : Course → List Person)
    (course : Course) (rest : List Course) (rooms : List Room) (alloc : Alloc)
    (i : ℕ) (is : List ℕ)
    (hf : (List.range rooms.length).filter
      (fun i => (nth rooms i roomJunk).is_available course.timeslot course.size) = i :: is) :
    greedyGo dist sampler (course :: rest) rooms alloc =
      (pyMin (fun a => travel_cost dist sampler course (nth rooms a roomJunk)) (i :: is)
        >>= fun j =>
          greedyGo dist sampler rest
            (rooms.set j { nth rooms j roomJunk with
              schedule := aSet (nth rooms j roomJunk).schedule course.timeslot course.id })
            (aSet alloc course.id (nth rooms j roomJunk).id)) := by
  rw [greedyGo, hf]

theorem specGreedyStuck_nil_eq (dist : Point → Point → ℚ) (sampler : Course → List Person)
    (course : Course) (rest : List Course) (rooms : List Room)
    (hf : (List.range rooms.length).filter
      (fun i => (nth rooms i roomJunk).is_available course.timeslot course.size) = []) :
    specGreedyStuck dist sampler (course :: rest) rooms = true := by
  rw [specGreedyStuck, hf]

theorem specGreedyStuck_cons_eq (dist : Point → Point → ℚ) (sampler : Course → List Person)
    (course : Course) (rest : List Course) (rooms : List Room)
    (i : ℕ) (is : List ℕ)
    (hf : (List.range rooms.length).filter
      (fun i => (nth rooms i roomJunk).is_available course.timeslot course.size) = i :: is) :
    specGreedyStuck dist sampler (course :: rest) rooms =
      (specGreedyStuck dist sampler rest
        (rooms.set (pyMinP (fun a => travel_costP dist sampler course (nth rooms a roomJunk)) i is)
          { nth rooms (pyMinP (fun a => travel_costP dist sampler course (nth rooms a roomJunk)) i is) roomJunk with
            schedule := aSet (nth rooms (pyMinP (fun a => travel_costP dist sampler course (nth rooms a roomJunk)) i is) roomJunk).schedule
              course.timeslot course.id })) := by
  rw [specGreedyStuck, hf]

theorem greedyGo_vs_spec (dist : Point → Point → ℚ) (sampler : Course → List Person)
    (cs : List Course) :
    ∀ (rooms : List Room) (alloc : Alloc), (∀ c ∈ cs, c.students ≠ []) →
    (specGreedyStuck dist sampler cs rooms = true →
      ∃ cid ts, greedyGo dist sampler cs rooms alloc = .error (.infeasible cid ts)) ∧
    (specGreedyStuck dist sampler cs rooms = false →
      ∃ m rooms', greedyGo dist sampler cs rooms alloc = .ok (m, rooms') ∧
        (∀ c ∈ cs, (aGet m c.id).isSome = true) ∧
        (∀ k, (aGet alloc k).isSome = true → (aGet m k).isSome = true)) := by
  induction cs with
  | nil =>
      intro rooms alloc _
      constructor
      · intro h; simp [specGreedyStuck] at h
      · intro _; exact ⟨alloc, rooms, rfl, by simp, fun k hk => hk⟩
  | cons course rest ih =>
      intro rooms alloc hstu
      have hc : course.students ≠ [] := hstu course (List.mem_cons_self _ _)
      have hrest : ∀ c ∈ rest, c.students ≠ [] := fun c hm => hstu c (List.mem_cons_of_mem _ hm)
      cases hf : (List.range rooms.length).filter
          (fun i => (nth rooms i roomJunk).is_available course.timeslot course.size) with
      | nil =>
          constructor
          · intro _
            exact ⟨course.id, course.timeslot, greedyGo_nil_eq _ _ _ _ _ _ hf⟩
          · intro h
            rw [specGreedyStuck_nil_eq _ _ _ _ _ hf] at h
            exact Bool.noConfusion h
      | cons i is =>
          have hkeys : ∀ a ∈ i :: is,
              travel_cost dist sampler course (nth rooms a roomJunk) =
                .ok (travel_costP dist sampler course (nth rooms a roomJunk)) :=
            fun a _ => travel_cost_eq_ok _ _ _ _ hc
          have hmin := pyMin_eq_pure
            (fun a => travel_cost dist sampler course (nth rooms a roomJunk))
            (fun a => travel_costP dist sampler course (nth rooms a roomJunk)) i is hkeys
          have hg := greedyGo_cons_eq dist sampler course rest rooms alloc i is hf
          rw [hmin] at hg
          simp only [exbind_ok] at hg
          have hs := specGreedyStuck_cons_eq dist sampler course rest rooms i is hf
          rw [hg, hs]
          obtain ⟨ih1, ih2⟩ := ih _ _ hrest
          refine ⟨ih1, fun hfalse => ?_⟩
          obtain ⟨m, rooms', hok, hall, hpres⟩ := ih2 hfalse
          refine ⟨m, rooms', hok, ?_, ?_⟩
          · intro c hcmem
            rcases List.mem_cons.mp hcmem with rfl | hcr
            · apply hpres
              rw [aGet_aSet_self]
              rfl
            · exact hall c hcr
          · intro k hk
            apply hpres
            rw [aGet_aSet]
            by_cases hkk : k = course.id
            · simp [hkk]
            · rw [if_neg hkk]; exact hk

theorem greedyGo_inv (dist : Point → Point → ℚ) (sampler : Course → List Person)
    (allCourses : List Course) (hnod : (allCourses.map Course.id).Nodup)
    (cs : List Course) :
    ∀ (rooms : List Room) (alloc : Alloc) (m : Alloc) (rooms' : List Room),
    (∀ c ∈ cs, c ∈ allCourses) →
    capInv allCourses rooms alloc →
    greedyGo dist sampler cs rooms alloc = .ok (m, rooms') →
    rooms'.map (fun r => (r.id, r.capacity)) = rooms.map (fun r => (r.id, r.capacity)) ∧
    capInv allCourses rooms' m := by
  induction cs with
  | nil =>
      intro rooms alloc m rooms' _ hinv hok
      rw [greedyGo] at hok
      simp only [Except.ok.injEq, Prod.mk.injEq] at hok
      obtain ⟨rfl, rfl⟩ := hok
      exact ⟨rfl, hinv⟩
  | cons course rest ih =>
      intro rooms alloc m rooms' hsub hinv hok
      have hcourse : course ∈ allCourses := hsub course (List.mem_cons_self _ _)
      have hsubr : ∀ c ∈ rest, c ∈ allCourses := fun c hm => hsub c (List.mem_cons_of_mem _ hm)
      cases hf : (List.range rooms.length).filter
          (fun i => (nth rooms i roomJunk).is_available course.timeslot course.size) with
      | nil =>
          rw [greedyGo_nil_eq _ _ _ _ _ _ hf] at hok
          exact absurd hok (by simp)
      | cons i is =>
          rw [greedyGo_cons_eq _ _ _ _ _ _ i is hf] at hok
          cases hmin : pyMin
              (fun a => travel_cost dist sampler course (nth rooms a roomJunk)) (i :: is) with
          | error e => rw [hmin] at hok; simp only [exbind_error] at hok; exact absurd hok (by simp)
          | ok j =>
              rw [hmin] at hok
              simp only [exbind_ok] at hok
              have hjmem : j ∈ i :: is := pyMin_mem _ _ _ hmin
              have hjfilter : j ∈ (List.range rooms.length).filter
                  (fun i => (nth rooms i roomJunk).is_available course.timeslot course.size) := by
                rw [hf]; exact hjmem
              obtain ⟨hjr, hjav⟩ := List.mem_filter.mp hjfilter
              have hjlt : j < rooms.length := List.mem_range.mp hjr
              rw [Room.is_available, Bool.and_eq_true] at hjav
              have havN : (aGet (nth rooms j roomJunk).schedule course.timeslot).isNone = true :=
                hjav.1
              have havC : course.size ≤ (nth rooms j roomJunk).capacity :=
                of_decide_eq_true hjav.2
              have hinv₁ : capInv allCourses
                  (rooms.set j { nth rooms j roomJunk with
                    schedule := aSet (nth rooms j roomJunk).schedule course.timeslot course.id })
                  (aSet alloc course.id (nth rooms j roomJunk).id) := by
                intro c hcmem rid hrid
                by_cases hcid : c.id = course.id
                · have hceq : c = course := nodup_map_inj hnod hcmem hcourse hcid
                  subst hceq
                  rw [hcid, aGet_aSet_self] at hrid
                  refine ⟨j, by rw [List.length_set]; exact hjlt, ?_, ?_, ?_⟩ <;>
                    rw [nth_set_self _ _ _ _ hjlt]
                  · exact (Option.some.inj hrid)
                  · exact havC
                  · rw [hcid]; exact aGet_aSet_self _ _ _
                · rw [aGet_aSet_ne _ _ _ _ hcid] at hrid
                  obtain ⟨p, hp, hpid, hpcap, hpsched⟩ := hinv c hcmem rid hrid
                  by_cases hpj : p = j
                  · subst hpj
                    refine ⟨p, by rw [List.length_set]; exact hp, ?_, ?_, ?_⟩ <;>
                      rw [nth_set_self _ _ _ _ hjlt]
                    · exact hpid
                    · exact hpcap
                    · have hts : course.timeslot ≠ c.timeslot := by
                        intro h
                        rw [h, hpsched] at havN
                        cases havN
                      rw [aGet_aSet_ne _ _ _ _ (fun h => hts h.symm)]
                      exact hpsched
                  · refine ⟨p, by rw [List.length_set]; exact hp, ?_, ?_, ?_⟩ <;>
                      rw [nth_set_ne _ _ _ _ _ (fun h => hpj h.symm)]
                    · exact hpid
                    · exact hpcap
                    · exact hpsched
              obtain ⟨ihmap, ihinv⟩ := ih _ _ m rooms' hsubr hinv₁ hok
              refine ⟨?_, ihinv⟩
              rw [ihmap]
              exact map_set_same _ rooms j _ roomJunk hjlt rfl

theorem nth_eq_get {α : Type} : ∀ (l : List α) (n : ℕ) (d : α) (h : n < l.length),
    nth l n d = l.get ⟨n, h⟩
  | _ :: _, 0, _, _ => rfl
  | _ :: xs, n+1, d, h => nth_eq_get xs n d (by simpa using h)
  | [], _, _, h => absurd h (by simp)

theorem nth_map {α β : Type} (f : α → β) : ∀ (l : List α) (p : ℕ) (d : α),
    nth (l.map f) p (f d) = f (nth l p d)
  | [], _, _ => rfl
  | _ :: _, 0, _ => rfl
  | _ :: xs, p+1, d => nth_map f xs p d

theorem nodup_nth_inj {α : Type} {l : List α} (h : l.Nodup) {p1 p2 : ℕ} (d : α)
    (h1 : p1 < l.length) (h2 : p2 < l.length) (he : nth l p1 d = nth l p2 d) :
    p1 = p2 := by
  rw [nth_eq_get l p1 d h1, nth_eq_get l p2 d h2] at he
  have := (h.get_inj_iff).mp he
  exact congrArg Fin.val this

/-- If some course has an empty roster, the greedy loop can never return
`ok`: reaching the course either finds no feasible room (infeasibility
error) or evaluates `travel_cost` on it (`ZeroDivisionError`). -/
theorem greedyGo_empty_roster (dist : Point → Point → ℚ) (sampler : Course → List Person)
    (c : Course) (hstu : c.students = []) :
    ∀ (cs : List Course), c ∈ cs → ∀ (rooms : List Room) (alloc : Alloc)
      (res : Alloc × List Room), greedyGo dist sampler cs rooms alloc ≠ .ok res := by
  intro cs
  induction cs with
  | nil => intro hcmem; cases hcmem
  | cons course rest ih =>
      intro hcmem rooms alloc res hok
      cases hf : (List.range rooms.length).filter
          (fun i => (nth rooms i roomJunk).is_available course.timeslot course.size) with
      | nil =>
          rw [greedyGo_nil_eq _ _ _ _ _ _ hf] at hok
          exact absurd hok (by simp)
      | cons i is =>
          rw [greedyGo_cons_eq _ _ _ _ _ _ i is hf] at hok
          rcases List.mem_cons.mp hcmem with rfl | hcr
          · have hkey : travel_cost dist sampler c (nth rooms i roomJunk) =
                .error .divByZero := by
              simp [travel_cost, hstu]
            rw [pyMin_head_error (fun a => travel_cost dist sampler c (nth rooms a roomJunk))
              i is Err.divByZero hkey] at hok
            simp only [exbind_error] at hok
            exact absurd hok (by simp)
          · cases hmin : pyMin
                (fun a => travel_cost dist sampler course (nth rooms a roomJunk)) (i :: is) with
            | error e =>
                rw [hmin] at hok
                simp only [exbind_error] at hok
                exact absurd hok (by simp)
            | ok j =>
                rw [hmin] at hok
                simp only [exbind_ok] at hok
                exact ih hcr _ _ _ hok

/-- Capacity guarantee of the greedy allocator (helper for C2). -/
theorem greedy_capacity (dist : Point → Point → ℚ) (sampler : Course → List Person)
    (courses : List Course) (rooms : List Room)
    (hnod : (courses.map Course.id).Nodup) (m : Alloc) (rooms' : List Room)
    (hok : greedy_allocate dist sampler courses rooms = .ok (m, rooms')) :
    ∀ c ∈ courses, ∀ rid, aGet m c.id = some rid →
      ∃ r ∈ rooms, r.id = rid ∧ c.size ≤ r.capacity := by
  have hperm : (sortBySizeDesc courses).Perm courses :=
    sortByStable_perm _ courses
  have hinv0 : capInv courses rooms [] := by
    intro c _ rid h
    exact absurd h (by simp [aGet])
  obtain ⟨hmap, hinv⟩ := greedyGo_inv dist sampler courses hnod (sortBySizeDesc courses)
    rooms [] m rooms' (fun c hcm => hperm.mem_iff.mp hcm) hinv0 hok
  intro c hcm rid hrid
  obtain ⟨p, hp, hpid, hpcap, _⟩ := hinv c hcm rid hrid
  have hlen : rooms'.length = rooms.length := by
    simpa using congrArg List.length hmap
  have hfp := map_eq_nth (fun r => (r.id, r.capacity)) rooms' rooms hmap p roomJunk hp
  have hid : (nth rooms' p roomJunk).id = (nth rooms p roomJunk).id := congrArg Prod.fst hfp
  have hcap : (nth rooms' p roomJunk).capacity = (nth rooms p roomJunk).capacity :=
    congrArg Prod.snd hfp
  refine ⟨nth rooms p roomJunk, nth_mem rooms p roomJunk (hlen ▸ hp), ?_, ?_⟩
  · rw [← hid]; exact hpid
  · rw [← hcap]; exact hpcap

/-- No-double-booking guarantee of the greedy allocator (helper for C3). -/
theorem greedy_no_double (dist : Point → Point → ℚ) (sampler : Course → List Person)
    (courses : List Course) (rooms : List Room)
    (hnodC : (courses.map Course.id).Nodup) (hnodR : (rooms.map Room.id).Nodup)
    (m : Alloc) (rooms' : List Room)
    (hok : greedy_allocate dist sampler courses rooms = .ok (m, rooms')) :
    ∀ c1 ∈ courses, ∀ c2 ∈ courses, c1.timeslot = c2.timeslot →
      ∀ rid, aGet m c1.id = some rid → aGet m c2.id = some rid → c1 = c2 := by
  have hperm : (sortBySizeDesc courses).Perm courses :=
    sortByStable_perm _ courses
  have hinv0 : capInv courses rooms [] := by
    intro c _ rid h
    exact absurd h (by simp [aGet])
  obtain ⟨hmap, hinv⟩ := greedyGo_inv dist sampler courses hnodC (sortBySizeDesc courses)
    rooms [] m rooms' (fun c hcm => hperm.mem_iff.mp hcm) hinv0 hok
  intro c1 h1 c2 h2 hts rid hr1 hr2
  obtain ⟨p1, hp1, hpid1, _, hsched1⟩ := hinv c1 h1 rid hr1
  obtain ⟨p2, hp2, hpid2, _, hsched2⟩ := hinv c2 h2 rid hr2
  have hids : rooms'.map Room.id = rooms.map Room.id := by
    have := congrArg (List.map Prod.fst) hmap
    simpa [List.map_map, Function.comp] using this
  have hnodR' : (rooms'.map Room.id).Nodup := by rw [hids]; exact hnodR
  have hpe : p1 = p2 := by
    refine nodup_nth_inj hnodR' (Room.id roomJunk) ?_ ?_ ?_
    · simpa using hp1
    · simpa using hp2
    · rw [nth_map Room.id rooms' p1 roomJunk, nth_map Room.id rooms' p2 roomJunk,
        hpid1, hpid2]
  subst hpe
  rw [hts] at hsched1
  rw [hsched1] at hsched2
  exact nodup_map_inj hnodC h1 h2 (Option.some.inj hsched2)

/-- C1, counterexample to the claim as stated: with a single course whose
roster is empty and a single feasible room, the spec-side infeasibility
condition is false, yet `greedy_allocate` does not return a complete
mapping — evaluating the cost of the empty-roster course raises
`ZeroDivisionError`.  This refutes the claim's "otherwise it returns a
complete mapping assigning every course a room". -/
theorem c1_counterexample :
    specGreedyInfeasible distZero samplerNil [courseEmptyRoster] [roomBig] = false ∧
    greedy_allocate distZero samplerNil [courseEmptyRoster] [roomBig] =
      .error .divByZero := by
  constructor
  · decide
  · decide

/-- C1 (amended: assuming every course has at least one enrolled student):
`greedy_allocate` raises the allocation-infeasibility error — identifying the
offending course and its time-slot — if and only if, processing courses in
descending-size order, some course at its turn has every room either occupied
at its time-slot or undersized (`specGreedyInfeasible`); otherwise it returns
a mapping assigning every course a room. -/
theorem c1_greedy_infeasible_iff (dist : Point → Point → ℚ)
    (sampler : Course → List Person) (courses : List Course) (rooms : List Room)
    (hstu : ∀ c ∈ courses, c.students ≠ []) :
    ((∃ cid ts, greedy_allocate dist sampler courses rooms = .error (.infeasible cid ts)) ↔
      specGreedyInfeasible dist sampler courses rooms = true) ∧
    (specGreedyInfeasible dist sampler courses rooms = false →
      ∃ m rooms', greedy_allocate dist sampler courses rooms = .ok (m, rooms') ∧
        ∀ c ∈ courses, (aGet m c.id).isSome = true) := by
  have hperm : (sortBySizeDesc courses).Perm courses :=
    sortByStable_perm _ courses
  have hstu' : ∀ c ∈ sortBySizeDesc courses, c.students ≠ [] :=
    fun c hcm => hstu c (hperm.mem_iff.mp hcm)
  obtain ⟨h1, h2⟩ := greedyGo_vs_spec dist sampler (sortBySizeDesc courses) rooms [] hstu'
  constructor
  · constructor
    · rintro ⟨cid, ts, herr⟩
      by_contra hfalse
      have hb : specGreedyInfeasible dist sampler courses rooms = false := by
        cases hsb : specGreedyInfeasible dist sampler courses rooms
        · rfl
        · exact absurd hsb hfalse
      obtain ⟨m, rooms', hok, _, _⟩ := h2 hb
      rw [greedy_allocate] at herr
      rw [hok] at herr
      exact Except.noConfusion herr
    · intro htrue
      exact h1 htrue
  · intro hfalse
    obtain ⟨m, rooms', hok, hall, _⟩ := h2 hfalse
    exact ⟨m, rooms', hok, fun c hcm => hall c (hperm.mem_iff.mpr hcm)⟩

/-- C1, witness: the amended theorem applied at a concrete feasible input. -/
theorem c1_greedy_infeasible_iff_witness :
    ((∃ cid ts, greedy_allocate distZero samplerNil [course1] [roomBig] =
        .error (.infeasible cid ts)) ↔
      specGreedyInfeasible distZero samplerNil [course1] [roomBig] = true) ∧
    (specGreedyInfeasible distZero samplerNil [course1] [roomBig] = false →
      ∃ m rooms', greedy_allocate distZero samplerNil [course1] [roomBig] = .ok (m, rooms') ∧
        ∀ c ∈ [course1], (aGet m c.id).isSome = true) :=
  c1_greedy_infeasible_iff distZero samplerNil [course1] [roomBig] (by decide)

theorem aGet_mem {κ β : Type} [DecidableEq κ] :
    ∀ (m : List (κ × β)) (k : κ) (v : β), aGet m k = some v → (k, v) ∈ m
  | [], _, _, h => absurd h (by simp [aGet])
  | (k₀, v₀) :: rest, k, v, h => by
      rw [aGet] at h
      by_cases hk : k = k₀
      · rw [if_pos hk] at h
        subst hk
        rw [Option.some.inj h]
        exact List.mem_cons_self _ _
      · rw [if_neg hk] at h
        exact List.mem_cons_of_mem _ (aGet_mem rest k v h)

theorem cost_of_alloc_ok_lookups (dist : Point → Point → ℚ)
    (sampler : Course → List Person) (rooms : RoomTable) (alloc : Alloc) :
    ∀ (courses : List Course) (v : ℚ),
    cost_of_alloc dist sampler rooms alloc courses = .ok v →
    lookupsOK courses rooms alloc := by
  intro courses
  induction courses with
  | nil => intro v _ c hc; cases hc
  | cons c rest ih =>
      intro v hok x hx
      rw [cost_of_alloc] at hok
      cases hrid : aGet alloc c.id with
      | none => rw [hrid] at hok; exact absurd hok (by simp [lookupE])
      | some rid =>
          rw [hrid] at hok
          simp only [lookupE, exbind_ok] at hok
          cases hroom : aGet rooms rid with
          | none => rw [hroom] at hok; exact absurd hok (by simp [lookupE])
          | some room =>
              rw [hroom] at hok
              simp only [lookupE, exbind_ok] at hok
              cases htc : travel_cost dist sampler c room with
              | error e => rw [htc] at hok; exact absurd hok (by simp)
              | ok tc =>
                  rw [htc] at hok
                  simp only [exbind_ok] at hok
                  cases hrest : cost_of_alloc dist sampler rooms alloc rest with
                  | error e => rw [hrest] at hok; exact absurd hok (by simp)
                  | ok restCost =>
                      rcases List.mem_cons.mp hx with rfl | hxr
                      · exact ⟨rid, room, hrid, hroom⟩
                      · exact ih restCost hrest x hxr

theorem cost_of_alloc_eq_costP (dist : Point → Point → ℚ)
    (sampler : Course → List Person) (rooms : RoomTable) (alloc : Alloc) :
    ∀ (courses : List Course), (∀ c ∈ courses, c.students ≠ []) →
    lookupsOK courses rooms alloc →
    cost_of_alloc dist sampler rooms alloc courses =
      .ok (costP dist sampler courses rooms alloc) := by
  intro courses
  induction courses with
  | nil => intro _ _; rfl
  | cons c rest ih =>
      intro hstu hlk
      obtain ⟨rid, room, hrid, hroom⟩ := hlk c (List.mem_cons_self _ _)
      have hc : c.students ≠ [] := hstu c (List.mem_cons_self _ _)
      rw [cost_of_alloc, hrid]
      simp only [lookupE, exbind_ok]
      rw [hroom]
      simp only [lookupE, exbind_ok]
      rw [travel_cost_eq_ok _ _ _ _ hc]
      simp only [exbind_ok]
      rw [ih (fun x hx => hstu x (List.mem_cons_of_mem _ hx))
        (fun x hx => hlk x (List.mem_cons_of_mem _ hx))]
      simp only [exbind_ok]
      have hroomOf : roomOf rooms alloc c = room := by
        simp [roomOf, hrid, hroom]
      simp [costP, List.map_cons, List.sum_cons, hroomOf]

/-! ## Pointwise sum-update lemmas -/

theorem sum_map_congr {α : Type} (f f' : α → ℚ) :
    ∀ (l : List α), (∀ x ∈ l, f' x = f x) → (l.map f').sum = (l.map f).sum
  | [], _ => rfl
  | x :: xs, h => by
      simp only [List.map_cons, List.sum_cons]
      rw [h x (List.mem_cons_self _ _),
        sum_map_congr f f' xs (fun y hy => h y (List.mem_cons_of_mem _ hy))]

theorem sum_map_one_update {α : Type} (f f' : α → ℚ) :
    ∀ (l : List α), l.Nodup → ∀ b ∈ l, (∀ x ∈ l, x ≠ b → f' x = f x) →
    (l.map f').sum = (l.map f).sum + (f' b - f b)
  | [], _, b, hb, _ => absurd hb (by simp)
  | x :: xs, hnd, b, hb, h => by
      rw [List.nodup_cons] at hnd
      simp only [List.map_cons, List.sum_cons]
      rcases List.mem_cons.mp hb with rfl | hbx
      · rw [sum_map_congr f f' xs
          (fun y hy => h y (List.mem_cons_of_mem _ hy) (fun he => hnd.1 (by rw [← he]; exact hy)))]
        ring
      · rw [h x (List.mem_cons_self _ _) (fun he => hnd.1 (by rw [he]; exact hbx)),
          sum_map_one_update f f' xs hnd.2 b hbx
            (fun y hy hyb => h y (List.mem_cons_of_mem _ hy) hyb)]
        ring

theorem sum_map_two_update {α : Type} (f f' : α → ℚ) :
    ∀ (l : List α), l.Nodup → ∀ a ∈ l, ∀ b ∈ l, a ≠ b →
    (∀ x ∈ l, x ≠ a → x ≠ b → f' x = f x) →
    (l.map f').sum = (l.map f).sum + (f' a - f a) + (f' b - f b)
  | [], _, a, ha, _, _, _, _ => absurd ha (by simp)
  | x :: xs, hnd, a, ha, b, hb, hab, h => by
      rw [List.nodup_cons] at hnd
      simp only [List.map_cons, List.sum_cons]
      rcases List.mem_cons.mp ha with rfl | hax
      · have hbx : b ∈ xs := by
          rcases List.mem_cons.mp hb with h1 | h1
          · exact absurd h1.symm hab
          · exact h1
        rw [sum_map_one_update f f' xs hnd.2 b hbx
          (fun y hy hyb => h y (List.mem_cons_of_mem _ hy)
            (fun he => hnd.1 (by rw [← he]; exact hy)) hyb)]
        ring
      · rcases List.mem_cons.mp hb with rfl | hbxs
        · rw [sum_map_one_update f f' xs hnd.2 a hax
            (fun y hy hya => h y (List.mem_cons_of_mem _ hy) hya
              (fun he => hnd.1 (by rw [← he]; exact hy)))]
          ring
        · rw [h x (List.mem_cons_self _ _) (fun he => hnd.1 (by rw [he]; exact hax))
              (fun he => hnd.1 (by rw [he]; exact hbxs)),
            sum_map_two_update f f' xs hnd.2 a hax b hbxs hab
              (fun y hy hya hyb => h y (List.mem_cons_of_mem _ hy) hya hyb)]
          ring

theorem aGet_swap {κ β : Type} [DecidableEq κ] (m : List (κ × β)) (k1 k2 : κ)
    (v1 v2 : β) (k : κ) :
    aGet (aSet (aSet m k1 v2) k2 v1) k =
      if k = k2 then some v1 else if k = k1 then some v2 else aGet m k := by
  rw [aGet_aSet, aGet_aSet]

theorem lookupsOK_swap (courses : List Course) (rooms : RoomTable) (st : Alloc)
    (c1 c2 : Course) (rid1 rid2 : String) (r1 r2 : Room)
    (hget1 : aGet rooms rid1 = some r1) (hget2 : aGet rooms rid2 = some r2)
    (hlk : lookupsOK courses rooms st) :
    lookupsOK courses rooms (aSet (aSet st c1.id rid2) c2.id rid1) := by
  intro c hc
  rw [aGet_swap]
  by_cases h2 : c.id = c2.id
  · rw [if_pos h2]; exact ⟨rid1, r1, rfl, hget1⟩
  · rw [if_neg h2]
    by_cases h1 : c.id = c1.id
    · rw [if_pos h1]; exact ⟨rid2, r2, rfl, hget2⟩
    · rw [if_neg h1]; exact hlk c hc

theorem capOKL_swap (courses : List Course) (rooms : RoomTable) (st : Alloc)
    (hnodC : (courses.map Course.id).Nodup) (c1 c2 : Course)
    (h1 : c1 ∈ courses) (h2 : c2 ∈ courses)
    (rid1 rid2 : String) (r1 r2 : Room)
    (hget1 : aGet rooms rid1 = some r1) (hget2 : aGet rooms rid2 = some r2)
    (hcap1 : c1.size ≤ r2.capacity) (hcap2 : c2.size ≤ r1.capacity)
    (hcap : capOKL courses rooms st) :
    capOKL courses rooms (aSet (aSet st c1.id rid2) c2.id rid1) := by
  intro c hc rid hrid
  rw [aGet_swap] at hrid
  by_cases hc2 : c.id = c2.id
  · rw [if_pos hc2] at hrid
    have hce : c = c2 := nodup_map_inj hnodC hc h2 hc2
    refine ⟨r1, ?_, ?_⟩
    · rw [← Option.some.inj hrid]; exact hget1
    · rw [hce]; exact hcap2
  · rw [if_neg hc2] at hrid
    by_cases hc1 : c.id = c1.id
    · rw [if_pos hc1] at hrid
      have hce : c = c1 := nodup_map_inj hnodC hc h1 hc1
      refine ⟨r2, ?_, ?_⟩
      · rw [← Option.some.inj hrid]; exact hget2
      · rw [hce]; exact hcap1
    · rw [if_neg hc1] at hrid
      exact hcap c hc rid hrid

theorem noDouble_swap (courses : List Course) (st : Alloc)
    (hnodC : (courses.map Course.id).Nodup) (c1 c2 : Course)
    (h1 : c1 ∈ courses) (h2 : c2 ∈ courses)
    (hts : c1.timeslot = c2.timeslot) (hne : c1.id ≠ c2.id)
    (rid1 rid2 : String)
    (hst1 : aGet st c1.id = some rid1) (hst2 : aGet st c2.id = some rid2)
    (hnd : noDouble courses st) :
    noDouble courses (aSet (aSet st c1.id rid2) c2.id rid1) := by
  intro x hx y hy hts' rid' hx' hy'
  rw [aGet_swap] at hx' hy'
  by_cases hx2 : x.id = c2.id
  · have hxe : x = c2 := nodup_map_inj hnodC hx h2 hx2
    rw [if_pos hx2] at hx'
    have hr : rid' = rid1 := (Option.some.inj hx').symm
    by_cases hy2 : y.id = c2.id
    · exact nodup_map_inj hnodC hx hy (hx2.trans hy2.symm)
    · rw [if_neg hy2] at hy'
      by_cases hy1 : y.id = c1.id
      · rw [if_pos hy1] at hy'
        have h12 : rid2 = rid1 := (Option.some.inj hy').trans hr
        have : c1 = c2 := hnd c1 h1 c2 h2 hts rid1 hst1 (by rw [hst2, h12])
        exact absurd (congrArg Course.id this) hne
      · rw [if_neg hy1, hr] at hy'
        have hyts : c1.timeslot = y.timeslot := by
          rw [hts, ← hts']
          rw [hxe]
        have : c1 = y := hnd c1 h1 y hy hyts rid1 hst1 hy'
        exact absurd (congrArg Course.id this).symm hy1
  · rw [if_neg hx2] at hx'
    by_cases hx1 : x.id = c1.id
    · have hxe : x = c1 := nodup_map_inj hnodC hx h1 hx1
      rw [if_pos hx1] at hx'
      have hr : rid' = rid2 := (Option.some.inj hx').symm
      by_cases hy2 : y.id = c2.id
      · rw [if_pos hy2] at hy'
        have h12 : rid1 = rid2 := (Option.some.inj hy').trans hr
        have : c1 = c2 := hnd c1 h1 c2 h2 hts rid2 (by rw [hst1, h12]) hst2
        exact absurd (congrArg Course.id this) hne
      · rw [if_neg hy2] at hy'
        by_cases hy1 : y.id = c1.id
        · exact nodup_map_inj hnodC hx hy (hx1.trans hy1.symm)
        · rw [if_neg hy1, hr] at hy'
          have hyts : c2.timeslot = y.timeslot := by
            rw [← hts, ← hts', hxe]
          have : c2 = y := hnd c2 h2 y hy hyts rid2 hst2 hy'
          exact absurd (congrArg Course.id this).symm hy2
    · rw [if_neg hx1] at hx'
      by_cases hy2 : y.id = c2.id
      · have hye : y = c2 := nodup_map_inj hnodC hy h2 hy2
        rw [if_pos hy2] at hy'
        have hr : rid' = rid1 := (Option.some.inj hy').symm
        rw [hr] at hx'
        have hxts : x.timeslot = c1.timeslot := by
          rw [hts', hye, ← hts]
        have : x = c1 := hnd x hx c1 h1 hxts rid1 hx' hst1
        exact absurd (congrArg Course.id this) hx1
      · rw [if_neg hy2] at hy'
        by_cases hy1 : y.id = c1.id
        · have hye : y = c1 := nodup_map_inj hnodC hy h1 hy1
          rw [if_pos hy1] at hy'
          have hr : rid' = rid2 := (Option.some.inj hy').symm
          rw [hr] at hx'
          have hxts : x.timeslot = c2.timeslot := by
            rw [hts', hye, hts]
          have : x = c2 := hnd x hx c2 h2 hxts rid2 hx' hst2
          exact absurd (congrArg Course.id this) hx2
        · rw [if_neg hy1] at hy'
          exact hnd x hx y hy hts' rid' hx' hy'

theorem costP_swap (dist : Point → Point → ℚ) (sampler : Course → List Person)
    (courses : List Course) (rooms : RoomTable) (st : Alloc)
    (hnodC : (courses.map Course.id).Nodup) (c1 c2 : Course)
    (h1 : c1 ∈ courses) (h2 : c2 ∈ courses) (hne : c1.id ≠ c2.id)
    (rid1 rid2 : String) (r1 r2 : Room)
    (hst1 : aGet st c1.id = some rid1) (hst2 : aGet st c2.id = some rid2)
    (hr1 : aGet rooms rid1 = some r1) (hr2 : aGet rooms rid2 = some r2) :
    costP dist sampler courses rooms (aSet (aSet st c1.id rid2) c2.id rid1) =
      costP dist sampler courses rooms st
        + (travel_costP dist sampler c1 r2 - travel_costP dist sampler c1 r1)
        + (travel_costP dist sampler c2 r1 - travel_costP dist sampler c2 r2) := by
  have hnd : courses.Nodup := hnodC.of_map
  have hcne : c1 ≠ c2 := fun he => hne (congrArg Course.id he)
  have hold1 : roomOf rooms st c1 = r1 := by simp [roomOf, hst1, hr1]
  have hold2 : roomOf rooms st c2 = r2 := by simp [roomOf, hst2, hr2]
  have hnew1 : roomOf rooms (aSet (aSet st c1.id rid2) c2.id rid1) c1 = r2 := by
    simp only [roomOf, aGet_swap]
    rw [if_neg hne]
    simp [hr2]
  have hnew2 : roomOf rooms (aSet (aSet st c1.id rid2) c2.id rid1) c2 = r1 := by
    simp only [roomOf, aGet_swap]
    simp [hr1]
  rw [costP, costP,
    sum_map_two_update
      (fun c => travel_costP dist sampler c (roomOf rooms st c))
      (fun c => travel_costP dist sampler c
        (roomOf rooms (aSet (aSet st c1.id rid2) c2.id rid1) c))
      courses hnd c1 h1 c2 h2 hcne ?_]
  · rw [hold1, hold2, hnew1, hnew2]
  · intro x hx hx1 hx2
    have hid1 : x.id ≠ c1.id := fun he => hx1 (nodup_map_inj hnodC hx h1 he)
    have hid2 : x.id ≠ c2.id := fun he => hx2 (nodup_map_inj hnodC hx h2 he)
    simp only [roomOf, aGet_swap]
    rw [if_neg hid2, if_neg hid1]

theorem travel_cost_ok_val (dist : Point → Point → ℚ) (sampler : Course → List Person)
    (course : Course) (room : Room) (v : ℚ)
    (h : travel_cost dist sampler course room = .ok v) :
    v = travel_costP dist sampler course room := by
  by_cases hs : course.students = []
  · exact absurd h (by simp [travel_cost, hs])
  · rw [travel_cost_eq_ok dist sampler course room hs] at h
    exact (Except.ok.inj h).symm

/-! ## Inversion of one local-search iteration -/

theorem ls_iter_cases (dist : Point → Point → ℚ) (sampler : Course → List Person)
    (courses : List Course) (pick : ℕ × ℕ) (st : Alloc × RoomTable)
    (st' : Alloc × RoomTable)
    (hok : ls_iter dist sampler courses pick st = .ok st') :
    st' = st ∨ ∃ (rid1 rid2 : String) (r1 r2 : Room) (w x y z : ℚ),
      ¬ courses.length < 2 ∧
      (nth courses pick.1 courseJunk).timeslot = (nth courses pick.2 courseJunk).timeslot ∧
      aGet st.1 (nth courses pick.1 courseJunk).id = some rid1 ∧
      aGet st.2 rid1 = some r1 ∧
      aGet st.1 (nth courses pick.2 courseJunk).id = some rid2 ∧
      aGet st.2 rid2 = some r2 ∧
      ¬(r1.capacity < (nth courses pick.2 courseJunk).size ∨
        r2.capacity < (nth courses pick.1 courseJunk).size) ∧
      travel_cost dist sampler (nth courses pick.1 courseJunk) r2 = .ok w ∧
      travel_cost dist sampler (nth courses pick.2 courseJunk) r1 = .ok x ∧
      travel_cost dist sampler (nth courses pick.1 courseJunk) r1 = .ok y ∧
      travel_cost dist sampler (nth courses pick.2 courseJunk) r2 = .ok z ∧
      w + x - y - z < 0 ∧
      st' = (aSet (aSet st.1 (nth courses pick.1 courseJunk).id r2.id)
        (nth courses pick.2 courseJunk).id r1.id, st.2) := by
  simp only [ls_iter] at hok
  by_cases hlen : courses.length < 2
  · rw [if_pos hlen] at hok
    exact absurd hok (by simp)
  · rw [if_neg hlen] at hok
    by_cases hts : (nth courses pick.1 courseJunk).timeslot ≠
        (nth courses pick.2 courseJunk).timeslot
    · rw [if_pos hts] at hok
      exact Or.inl (Except.ok.inj hok).symm
    · rw [if_neg hts] at hok
      have htseq : (nth courses pick.1 courseJunk).timeslot =
          (nth courses pick.2 courseJunk).timeslot := not_not.mp hts
      cases hrid1 : aGet st.1 (nth courses pick.1 courseJunk).id with
      | none => rw [hrid1] at hok; exact absurd hok (by simp [lookupE])
      | some rid1 =>
          rw [hrid1] at hok
          simp only [lookupE, exbind_ok] at hok
          cases hr1 : aGet st.2 rid1 with
          | none => rw [hr1] at hok; exact absurd hok (by simp [lookupE])
          | some r1 =>
              rw [hr1] at hok
              simp only [lookupE, exbind_ok] at hok
              cases hrid2 : aGet st.1 (nth courses pick.2 courseJunk).id with
              | none => rw [hrid2] at hok; exact absurd hok (by simp [lookupE])
              | some rid2 =>
                  rw [hrid2] at hok
                  simp only [lookupE, exbind_ok] at hok
                  cases hr2 : aGet st.2 rid2 with
                  | none => rw [hr2] at hok; exact absurd hok (by simp [lookupE])
                  | some r2 =>
                      rw [hr2] at hok
                      simp only [lookupE, exbind_ok] at hok
                      by_cases hcap : r1.capacity < (nth courses pick.2 courseJunk).size ∨
                          r2.capacity < (nth courses pick.1 courseJunk).size
                      · rw [if_pos hcap] at hok
                        exact Or.inl (Except.ok.inj hok).symm
                      · rw [if_neg hcap] at hok
                        cases hw : travel_cost dist sampler
                            (nth courses pick.1 courseJunk) r2 with
                        | error e => rw [hw] at hok; exact absurd hok (by simp)
                        | ok w =>
                            rw [hw] at hok
                            simp only [exbind_ok] at hok
                            cases hx : travel_cost dist sampler
                                (nth courses pick.2 courseJunk) r1 with
                            | error e => rw [hx] at hok; exact absurd hok (by simp)
                            | ok x =>
                                rw [hx] at hok
                                simp only [exbind_ok] at hok
                                cases hy : travel_cost dist sampler
                                    (nth courses pick.1 courseJunk) r1 with
                                | error e => rw [hy] at hok; exact absurd hok (by simp)
                                | ok y =>
                                    rw [hy] at hok
                                    simp only [exbind_ok] at hok
                                    cases hz : travel_cost dist sampler
                                        (nth courses pick.2 courseJunk) r2 with
                                    | error e => rw [hz] at hok; exact absurd hok (by simp)
                                    | ok z =>
                                        rw [hz] at hok
                                        simp only [exbind_ok] at hok
                                        by_cases hd : w + x - y - z < 0
                                        · rw [if_pos hd] at hok
                                          exact Or.inr ⟨rid1, rid2, r1, r2, w, x, y, z,
                                            hlen, htseq, rfl, hr1, rfl, hr2, hcap,
                                            hw, hx, hy, hz, hd, (Except.ok.inj hok).symm⟩
                                        · rw [if_neg hd] at hok
                                          exact Or.inl (Except.ok.inj hok).symm

/-- One iteration never writes the room table. -/
theorem ls_iter_snd (dist : Point → Point → ℚ) (sampler : Course → List Person)
    (courses : List Course) (pick : ℕ × ℕ) (st st' : Alloc × RoomTable)
    (hok : ls_iter dist sampler courses pick st = .ok st') : st'.2 = st.2 := by
  rcases ls_iter_cases dist sampler courses pick st st' hok with h | h
  · rw [h]
  · obtain ⟨_, _, _, _, _, _, _, _, _, _, _, _, _, _, _, _, _, _, _, _, h⟩ := h
    rw [h]

/-- Master preservation lemma for one local-search iteration. -/
theorem ls_iter_master (dist : Point → Point → ℚ) (sampler : Course → List Person)
    (courses : List Course) (rooms : RoomTable)
    (hnodC : (courses.map Course.id).Nodup)
    (hcoh : ∀ kv ∈ rooms, (kv.2).id = kv.1)
    (pick : ℕ × ℕ) (hp1 : pick.1 < courses.length) (hp2 : pick.2 < courses.length)
    (st1 : Alloc) (st' : Alloc × RoomTable)
    (hok : ls_iter dist sampler courses pick (st1, rooms) = .ok st') :
    (lookupsOK courses rooms st1 → lookupsOK courses rooms st'.1) ∧
    (capOKL courses rooms st1 → capOKL courses rooms st'.1) ∧
    (noDouble courses st1 → noDouble courses st'.1) ∧
    (costP dist sampler courses rooms st'.1 ≤ costP dist sampler courses rooms st1) := by
  rcases ls_iter_cases dist sampler courses pick (st1, rooms) st' hok with h | h
  · rw [h]
    exact ⟨fun hh => hh, fun hh => hh, fun hh => hh, le_refl _⟩
  · obtain ⟨rid1, rid2, r1, r2, w, x, y, z, hlen, hts, hrid1, hr1, hrid2, hr2,
      hcap, hw, hx, hy, hz, hd, hst'⟩ := h
    have hc1mem : nth courses pick.1 courseJunk ∈ courses := nth_mem _ _ _ hp1
    have hc2mem : nth courses pick.2 courseJunk ∈ courses := nth_mem _ _ _ hp2
    have hr1id : r1.id = rid1 := hcoh (rid1, r1) (aGet_mem rooms rid1 r1 hr1)
    have hr2id : r2.id = rid2 := hcoh (rid2, r2) (aGet_mem rooms rid2 r2 hr2)
    have hne : (nth courses pick.1 courseJunk).id ≠ (nth courses pick.2 courseJunk).id := by
      intro he
      rw [he, hrid2] at hrid1
      have hre : rid2 = rid1 := Option.some.inj hrid1
      rw [hre, hr1] at hr2
      have hrr : r1 = r2 := Option.some.inj hr2
      rw [hrr, hw] at hy
      have hwy : w = y := Except.ok.inj hy
      rw [hrr, hz] at hx
      have hzx : z = x := Except.ok.inj hx
      rw [hwy, ← hzx] at hd
      simp at hd
    rw [hst']
    rw [hr1id, hr2id]
    push_neg at hcap
    have hwv := travel_cost_ok_val dist sampler _ _ w hw
    have hxv := travel_cost_ok_val dist sampler _ _ x hx
    have hyv := travel_cost_ok_val dist sampler _ _ y hy
    have hzv := travel_cost_ok_val dist sampler _ _ z hz
    refine ⟨?_, ?_, ?_, ?_⟩
    · intro hlk
      exact lookupsOK_swap courses rooms st1 _ _ rid1 rid2 r1 r2 hr1 hr2 hlk
    · intro hcapOK
      exact capOKL_swap courses rooms st1 hnodC _ _ hc1mem hc2mem rid1 rid2 r1 r2
        hr1 hr2 hcap.2 hcap.1 hcapOK
    · intro hnd
      exact noDouble_swap courses st1 hnodC _ _ hc1mem hc2mem hts hne rid1 rid2
        hrid1 hrid2 hnd
    · have hcostEq := costP_swap dist sampler courses rooms st1 hnodC _ _
        hc1mem hc2mem hne rid1 rid2 r1 r2 hrid1 hrid2 hr1 hr2
      show costP dist sampler courses rooms
        (aSet (aSet st1 (nth courses pick.1 courseJunk).id rid2)
          (nth courses pick.2 courseJunk).id rid1) ≤
        costP dist sampler courses rooms st1
      rw [hcostEq]
      rw [hwv, hxv, hyv, hzv] at hd
      linarith

theorem lsLoop_snd (dist : Point → Point → ℚ) (sampler : Course → List Person)
    (courses : List Course) (picks : ℕ → ℕ × ℕ) :
    ∀ (n t : ℕ) (st res : Alloc × RoomTable),
    lsLoop dist sampler courses picks t n st = .ok res → res.2 = st.2
  | 0, t, st, res, h => by
      rw [lsLoop] at h
      rw [← Except.ok.inj h]
  | n+1, t, st, res, h => by
      rw [lsLoop] at h
      cases hit : ls_iter dist sampler courses (picks t) st with
      | error e => rw [hit] at h; exact absurd h (by simp)
      | ok st' =>
          rw [hit] at h
          simp only [exbind_ok] at h
          rw [lsLoop_snd dist sampler courses picks n (t+1) st' res h,
            ls_iter_snd dist sampler courses (picks t) st st' hit]

theorem lsLoop_master (dist : Point → Point → ℚ) (sampler : Course → List Person)
    (courses : List Course) (rooms : RoomTable) (picks : ℕ → ℕ × ℕ)
    (hnodC : (courses.map Course.id).Nodup)
    (hcoh : ∀ kv ∈ rooms, (kv.2).id = kv.1)
    (hpick : ∀ t, (picks t).1 < courses.length ∧ (picks t).2 < courses.length) :
    ∀ (n t : ℕ) (st1 : Alloc) (res : Alloc × RoomTable),
    lsLoop dist sampler courses picks t n (st1, rooms) = .ok res →
    (lookupsOK courses rooms st1 → lookupsOK courses rooms res.1) ∧
    (capOKL courses rooms st1 → capOKL courses rooms res.1) ∧
    (noDouble courses st1 → noDouble courses res.1) ∧
    costP dist sampler courses rooms res.1 ≤ costP dist sampler courses rooms st1
  | 0, t, st1, res, h => by
      rw [lsLoop] at h
      rw [← Except.ok.inj h]
      exact ⟨id, id, id, le_refl _⟩
  | n+1, t, st1, res, h => by
      rw [lsLoop] at h
      cases hit : ls_iter dist sampler courses (picks t) (st1, rooms) with
      | error e => rw [hit] at h; exact absurd h (by simp)
      | ok st' =>
          rw [hit] at h
          simp only [exbind_ok] at h
          have hsnd : st'.2 = rooms := ls_iter_snd _ _ _ _ _ _ hit
          have hstep := ls_iter_master dist sampler courses rooms hnodC hcoh (picks t)
            (hpick t).1 (hpick t).2 st1 st' hit
          have h' : lsLoop dist sampler courses picks (t+1) n (st'.1, rooms) = .ok res := by
            rw [← hsnd]
            exact h
          have hrec := lsLoop_master dist sampler courses rooms picks hnodC hcoh hpick
            n (t+1) st'.1 res h'
          exact ⟨fun hl => hrec.1 (hstep.1 hl),
            fun hc => hrec.2.1 (hstep.2.1 hc),
            fun hn => hrec.2.2.1 (hstep.2.2.1 hn),
            le_trans hrec.2.2.2 hstep.2.2.2⟩

/-! ## Schedule independence of `local_search` (frame property) -/

theorem exmap_ok {α β : Type} (f : α → β) (a : α) :
    Except.map f (Except.ok a : Except Err α) = .ok (f a) := rfl

theorem exmap_error {α β : Type} (f : α → β) (e : Err) :
    Except.map f (Except.error e : Except Err α) = .error e := rfl

theorem aGet_mapSched (g : String → Room → List (ℤ × String)) :
    ∀ (rooms : RoomTable) (rid : String),
    aGet (mapSched g rooms) rid =
      (aGet rooms rid).map (fun r => { r with schedule := g rid r })
  | [], _ => rfl
  | (k₀, r₀) :: rest, rid => by
      by_cases h : rid = k₀
      · subst h
        simp [mapSched, aGet]
      · simp only [mapSched, List.map_cons, aGet, if_neg h]
        exact aGet_mapSched g rest rid

theorem travel_cost_mapSched (dist : Point → Point → ℚ) (sampler : Course → List Person)
    (c : Course) (r : Room) (s : List (ℤ × String)) :
    travel_cost dist sampler c { r with schedule := s } = travel_cost dist sampler c r := rfl

theorem ls_iter_mapSched (dist : Point → Point → ℚ) (sampler : Course → List Person)
    (courses : List Course) (pick : ℕ × ℕ)
    (g : String → Room → List (ℤ × String)) (rooms : RoomTable) (st1 : Alloc) :
    ls_iter dist sampler courses pick (st1, mapSched g rooms) =
      Except.map (fun p => (p.1, mapSched g rooms))
        (ls_iter dist sampler courses pick (st1, rooms)) := by
  simp only [ls_iter]
  by_cases hlen : courses.length < 2
  · rw [if_pos hlen, if_pos hlen]
    rfl
  · rw [if_neg hlen, if_neg hlen]
    by_cases hts : (nth courses pick.1 courseJunk).timeslot ≠
        (nth courses pick.2 courseJunk).timeslot
    · rw [if_pos hts, if_pos hts]
      rfl
    · rw [if_neg hts, if_neg hts]
      cases hrid1 : aGet st1 (nth courses pick.1 courseJunk).id with
      | none => simp [lookupE, hrid1, exmap_error]
      | some rid1 =>
          simp only [hrid1, lookupE, exbind_ok, aGet_mapSched]
          cases hr1 : aGet rooms rid1 with
          | none => simp [lookupE, hr1, exmap_error]
          | some r1 =>
              simp only [hr1, Option.map_some', lookupE, exbind_ok]
              cases hrid2 : aGet st1 (nth courses pick.2 courseJunk).id with
              | none => simp [lookupE, hrid2, exmap_error]
              | some rid2 =>
                  simp only [hrid2, lookupE, exbind_ok]
                  cases hr2 : aGet rooms rid2 with
                  | none => simp [lookupE, hr2, exmap_error]
                  | some r2 =>
                      simp only [hr2, Option.map_some', lookupE, exbind_ok]
                      by_cases hcap : r1.capacity < (nth courses pick.2 courseJunk).size ∨
                          r2.capacity < (nth courses pick.1 courseJunk).size
                      · rw [if_pos hcap, if_pos hcap]
                        rfl
                      · rw [if_neg hcap, if_neg hcap]
                        simp only [travel_cost_mapSched]
                        cases hw : travel_cost dist sampler
                            (nth courses pick.1 courseJunk) r2 with
                        | error e => simp [hw, exmap_error]
                        | ok w =>
                            simp only [hw, exbind_ok]
                            cases hx : travel_cost dist sampler
                                (nth courses pick.2 courseJunk) r1 with
                            | error e => simp [hx, exmap_error]
                            | ok x =>
                                simp only [hx, exbind_ok]
                                cases hy : travel_cost dist sampler
                                    (nth courses pick.1 courseJunk) r1 with
                                | error e => simp [hy, exmap_error]
                                | ok y =>
                                    simp only [hy, exbind_ok]
                                    cases hz : travel_cost dist sampler
                                        (nth courses pick.2 courseJunk) r2 with
                                    | error e => simp [hz, exmap_error]
                                    | ok z =>
                                        simp only [hz, exbind_ok]
                                        by_cases hd : w + x - y - z < 0
                                        · rw [if_pos hd, if_pos hd]
                                          rfl
                                        · rw [if_neg hd, if_neg hd]
                                          rfl

theorem lsLoop_mapSched (dist : Point → Point → ℚ) (sampler : Course → List Person)
    (courses : List Course) (picks : ℕ → ℕ × ℕ)
    (g : String → Room → List (ℤ × String)) (rooms : RoomTable) :
    ∀ (n t : ℕ) (st1 : Alloc),
    lsLoop dist sampler courses picks t n (st1, mapSched g rooms) =
      Except.map (fun p => (p.1, mapSched g rooms))
        (lsLoop dist sampler courses picks t n (st1, rooms))
  | 0, t, st1 => by
      rw [lsLoop, lsLoop]
      rfl
  | n+1, t, st1 => by
      rw [lsLoop, lsLoop]
      rw [ls_iter_mapSched]
      cases hit : ls_iter dist sampler courses (picks t) (st1, rooms) with
      | error e => rfl
      | ok st' =>
          simp only [exmap_ok, exbind_ok]
          have hsnd : st'.2 = rooms := ls_iter_snd _ _ _ _ _ _ hit
          have h1 : lsLoop dist sampler courses picks (t+1) n (st'.1, mapSched g rooms) =
              Except.map (fun p => (p.1, mapSched g rooms))
                (lsLoop dist sampler courses picks (t+1) n (st'.1, rooms)) :=
            lsLoop_mapSched dist sampler courses picks g rooms n (t+1) st'.1
          rw [show (st' : Alloc × RoomTable) = (st'.1, st'.2) from rfl, hsnd] at *
          exact h1

theorem cost_of_alloc_mapSched (dist : Point → Point → ℚ) (sampler : Course → List Person)
    (g : String → Room → List (ℤ × String)) (rooms : RoomTable) (alloc : Alloc) :
    ∀ (courses : List Course),
    cost_of_alloc dist sampler (mapSched g rooms) alloc courses =
      cost_of_alloc dist sampler rooms alloc courses
  | [] => rfl
  | c :: rest => by
      rw [cost_of_alloc, cost_of_alloc]
      cases hrid : aGet alloc c.id with
      | none => rfl
      | some rid =>
          simp only [hrid, lookupE, exbind_ok, aGet_mapSched]
          cases hroom : aGet rooms rid with
          | none => rfl
          | some room =>
              simp only [hroom, Option.map_some', lookupE, exbind_ok,
                travel_cost_mapSched]
              rw [cost_of_alloc_mapSched dist sampler g rooms alloc rest]

theorem local_search_snd (dist : Point → Point → ℚ) (sampler : Course → List Person)
    (allocation : Alloc) (courses : List Course) (rooms : RoomTable)
    (picks : ℕ → ℕ × ℕ) (max_iter : ℕ) (res : Alloc × RoomTable)
    (hok : local_search dist sampler allocation courses rooms picks max_iter = .ok res) :
    res.2 = rooms := by
  rw [local_search] at hok
  cases hin : cost_of_alloc dist sampler rooms allocation courses with
  | error e => rw [hin] at hok; exact absurd hok (by simp)
  | ok v =>
      rw [hin] at hok
      simp only [exbind_ok] at hok
      exact lsLoop_snd dist sampler courses picks max_iter 0 (allocation, rooms) res hok

theorem local_search_mapSched (dist : Point → Point → ℚ) (sampler : Course → List Person)
    (allocation : Alloc) (courses : List Course) (rooms : RoomTable)
    (picks : ℕ → ℕ × ℕ) (max_iter : ℕ) (g : String → Room → List (ℤ × String)) :
    local_search dist sampler allocation courses (mapSched g rooms) picks max_iter =
      Except.map (fun p => (p.1, mapSched g rooms))
        (local_search dist sampler allocation courses rooms picks max_iter) := by
  rw [local_search, local_search, cost_of_alloc_mapSched]
  cases hin : cost_of_alloc dist sampler rooms allocation courses with
  | error e => rfl
  | ok v =>
      simp only [exbind_ok]
      exact lsLoop_mapSched dist sampler courses picks g rooms max_iter 0 allocation

theorem local_search_master (dist : Point → Point → ℚ) (sampler : Course → List Person)
    (allocation : Alloc) (courses : List Course) (rooms : RoomTable)
    (picks : ℕ → ℕ × ℕ) (max_iter : ℕ)
    (hnodC : (courses.map Course.id).Nodup)
    (hcoh : ∀ kv ∈ rooms, (kv.2).id = kv.1)
    (hpick : ∀ t, (picks t).1 < courses.length ∧ (picks t).2 < courses.length)
    (res : Alloc × RoomTable)
    (hok : local_search dist sampler allocation courses rooms picks max_iter = .ok res) :
    (lookupsOK courses rooms allocation → lookupsOK courses rooms res.1) ∧
    (capOKL courses rooms allocation → capOKL courses rooms res.1) ∧
    (noDouble courses allocation → noDouble courses res.1) ∧
    costP dist sampler courses rooms res.1 ≤ costP dist sampler courses rooms allocation := by
  rw [local_search] at hok
  cases hin : cost_of_alloc dist sampler rooms allocation courses with
  | error e => rw [hin] at hok; exact absurd hok (by simp)
  | ok v =>
      rw [hin] at hok
      simp only [exbind_ok] at hok
      exact lsLoop_master dist sampler courses rooms picks hnodC hcoh hpick
        max_iter 0 allocation res hok

/-- C7: `local_search` returns a modified copy of the mapping while leaving
the room state alone: the room table it carries is returned unchanged
(first conjunct — no schedule is written), and replacing every room's
occupancy table by arbitrary contents changes neither success nor the
returned mapping (second conjunct — no schedule is read).  The input
mapping itself is unaffected because the loop starts from
`allocation.copy()`, embedded here by value-passing. -/
theorem c7_local_search_frame (dist : Point → Point → ℚ) (sampler : Course → List Person)
    (allocation : Alloc) (courses : List Course) (rooms : RoomTable)
    (picks : ℕ → ℕ × ℕ) (max_iter : ℕ) :
    (∀ res, local_search dist sampler allocation courses rooms picks max_iter = .ok res →
      res.2 = rooms) ∧
    (∀ g, local_search dist sampler allocation courses (mapSched g rooms) picks max_iter =
      Except.map (fun p => (p.1, mapSched g rooms))
        (local_search dist sampler allocation courses rooms picks max_iter)) :=
  ⟨fun res hok => local_search_snd dist sampler allocation courses rooms picks max_iter res hok,
   fun g => local_search_mapSched dist sampler allocation courses rooms picks max_iter g⟩

/-- C7, witness: the frame theorem applied to a concrete one-course run. -/
theorem c7_local_search_frame_witness :
    (([("c", "r")], [("r", roomBig)]) : Alloc × RoomTable).2 = [("r", roomBig)] :=
  (c7_local_search_frame distZero samplerNil [("c", "r")] [course1] [("r", roomBig)]
    (fun _ => (0, 0)) 0).1 ([("c", "r")], [("r", roomBig)]) (by decide)

/-- C5: with the cost model in exact mode (every roster within the sample
cap of 30, and nonempty so that the cost is defined), and with a well-formed
room lookup (each key mapping to the room bearing that id) and distinct
course ids, a successful `local_search` returns a mapping whose total cost
(`cost_of_alloc`) is at most that of the input allocation: swaps are applied
only on a strictly negative cost delta, so the tracked total is
non-increasing across iterations. -/
theorem c5_local_search_cost_nonincreasing (dist : Point → Point → ℚ)
    (sampler : Course → List Person) (allocation : Alloc) (courses : List Course)
    (rooms : RoomTable) (picks : ℕ → ℕ × ℕ) (max_iter : ℕ)
    (hstu : ∀ c ∈ courses, c.students ≠ [] ∧ c.students.length ≤ sampleCap)
    (hnodC : (courses.map Course.id).Nodup)
    (hcoh : ∀ kv ∈ rooms, (kv.2).id = kv.1)
    (hpick : ∀ t, (picks t).1 < courses.length ∧ (picks t).2 < courses.length)
    (res : Alloc × RoomTable)
    (hok : local_search dist sampler allocation courses rooms picks max_iter = .ok res) :
    ∃ cin cout, cost_of_alloc dist sampler rooms allocation courses = .ok cin ∧
      cost_of_alloc dist sampler rooms res.1 courses = .ok cout ∧ cout ≤ cin := by
  have hstu1 : ∀ c ∈ courses, c.students ≠ [] := fun c hc => (hstu c hc).1
  have hmaster := local_search_master dist sampler allocation courses rooms picks
    max_iter hnodC hcoh hpick res hok
  rw [local_search] at hok
  cases hin : cost_of_alloc dist sampler rooms allocation courses with
  | error e => rw [hin] at hok; exact absurd hok (by simp)
  | ok cin =>
      have hlk : lookupsOK courses rooms allocation :=
        cost_of_alloc_ok_lookups dist sampler rooms allocation courses cin hin
      have hlk' : lookupsOK courses rooms res.1 := hmaster.1 hlk
      have hin' := cost_of_alloc_eq_costP dist sampler rooms allocation courses hstu1 hlk
      have hcin : cin = costP dist sampler courses rooms allocation := by
        rw [hin] at hin'
        exact Except.ok.inj hin'
      refine ⟨cin, costP dist sampler courses rooms res.1, rfl,
        cost_of_alloc_eq_costP dist sampler rooms res.1 courses hstu1 hlk', ?_⟩
      rw [hcin]
      exact hmaster.2.2.2

/-- C5, witness: the theorem applied to a concrete zero-iteration run. -/
theorem c5_local_search_cost_nonincreasing_witness :
    ∃ cin cout,
      cost_of_alloc distZero samplerNil [("r", roomBig)] [("c", "r")] [course1] = .ok cin ∧
      cost_of_alloc distZero samplerNil [("r", roomBig)]
        (([("c", "r")], [("r", roomBig)]) : Alloc × RoomTable).1 [course1] = .ok cout ∧
      cout ≤ cin :=
  c5_local_search_cost_nonincreasing distZero samplerNil [("c", "r")] [course1]
    [("r", roomBig)] (fun _ => (0, 0)) 0 (by decide) (by decide) (by decide)
    (by
      intro t
      show (0, 0).1 < [course1].length ∧ (0, 0).2 < [course1].length
      decide)
    ([("c", "r")], [("r", roomBig)]) (by decide)

/-- C8: for a course with between 1 and 30 enrolled students `travel_cost`
is deterministic — it does not consult the sampling source — and equals the
teacher's distance plus the plain sum of every student's distance (scale
factor 1); for a roster above the cap the result depends on the drawn
sample: two legal samples (right size, drawn from the roster, without
replacement) can give different results. -/
theorem c8_travel_cost_exact_and_stochastic :
    (∀ (dist : Point → Point → ℚ) (s₁ s₂ : Course → List Person)
      (course : Course) (room : Room),
      1 ≤ course.students.length → course.students.length ≤ sampleCap →
      travel_cost dist s₁ course room = travel_cost dist s₂ course room ∧
      travel_cost dist s₁ course room = .ok (dist course.teacher.coord room.coord +
        (course.students.map (fun s => dist s.coord room.coord)).sum)) ∧
    (∃ (dist : Point → Point → ℚ) (s₁ s₂ : Course → List Person)
      (course : Course) (room : Room),
      sampleCap < course.students.length ∧
      (s₁ course).length = min sampleCap course.students.length ∧
      (s₂ course).length = min sampleCap course.students.length ∧
      (∀ p ∈ s₁ course, p ∈ course.students) ∧
      (∀ p ∈ s₂ course, p ∈ course.students) ∧
      (s₁ course).Nodup ∧ (s₂ course).Nodup ∧
      travel_cost dist s₁ course room ≠ travel_cost dist s₂ course room) := by
  constructor
  · intro dist s₁ s₂ course room h1 h2
    have hne : course.students ≠ [] := by
      intro h
      rw [h] at h1
      exact absurd h1 (by simp)
    refine ⟨?_, ?_⟩
    · rw [travel_cost_eq_ok _ _ _ _ hne, travel_cost_eq_ok _ _ _ _ hne,
        travel_costP_exact dist s₁ course room h1 h2,
        travel_costP_exact dist s₂ course room h1 h2]
    · rw [travel_cost_eq_ok _ _ _ _ hne, travel_costP_exact dist s₁ course room h1 h2]
  · refine ⟨distX, samplerLow, samplerHigh, courseBig, roomBig,
      by decide, by decide, by decide, ?_, ?_, by decide, by decide, by decide⟩
    · intro p hp
      exact List.take_subset 30 bigRoster hp
    · intro p hp
      exact List.drop_subset 1 bigRoster hp

/-- C8, witness: the exact-mode clause applied to a concrete one-student
course with two different samplers. -/
theorem c8_travel_cost_exact_witness :
    travel_cost distZero samplerNil course1 roomBig =
      travel_cost distZero (fun _ => [studentS]) course1 roomBig ∧
    travel_cost distZero samplerNil course1 roomBig =
      .ok (distZero course1.teacher.coord roomBig.coord +
        (course1.students.map (fun s => distZero s.coord roomBig.coord)).sum) :=
  c8_travel_cost_exact_and_stochastic.1 distZero samplerNil (fun _ => [studentS])
    course1 roomBig (by decide) (by decide)

theorem pyChoice_mem {α : Type} (o : ℕ) (l : List α) (a : α)
    (h : pyChoice o l = .ok a) : a ∈ l := by
  cases l with
  | nil => exact absurd h (by simp [pyChoice])
  | cons x xs =>
      rw [pyChoice] at h
      rw [← Except.ok.inj h]
      exact nth_mem _ _ _ (by
        simpa using Nat.mod_lt o (Nat.succ_pos xs.length))

theorem random_chromGo_valid (choice : ℕ → ℕ) :
    ∀ (feasible : List (List ℕ)) (g : ℕ) (ch : List ℕ),
    random_chromGo choice g feasible = .ok ch → ValidChrom feasible ch
  | [], g, ch, h => by
      rw [random_chromGo] at h
      rw [← Except.ok.inj h]
      exact List.Forall₂.nil
  | fr :: rest, g, ch, h => by
      rw [random_chromGo] at h
      cases hc : pyChoice (choice g) fr with
      | error e => rw [hc] at h; exact absurd h (by simp)
      | ok gene =>
          rw [hc] at h
          simp only [exbind_ok] at h
          cases hr : random_chromGo choice (g+1) rest with
          | error e => rw [hr] at h; exact absurd h (by simp)
          | ok genes =>
              rw [hr] at h
              simp only [exbind_ok] at h
              rw [← Except.ok.inj h]
              exact List.Forall₂.cons (pyChoice_mem _ _ _ hc)
                (random_chromGo_valid choice rest (g+1) genes hr)

theorem random_chromGo_empty (choice : ℕ → ℕ) :
    ∀ (feasible : List (List ℕ)) (g : ℕ), [] ∈ feasible →
    random_chromGo choice g feasible = .error .emptyChoice
  | [], _, h => absurd h (by simp)
  | fr :: rest, g, h => by
      rw [random_chromGo]
      by_cases hfr : fr = ([] : List ℕ)
      · subst hfr
        rfl
      · have hrest : ([] : List ℕ) ∈ rest := by
          rcases List.mem_cons.mp h with h1 | h1
          · exact absurd h1.symm hfr
          · exact h1
        cases fr with
        | nil => exact absurd rfl hfr
        | cons x xs =>
            rw [show pyChoice (choice g) (x :: xs) =
              .ok (nth (x :: xs) (choice g % (xs.length + 1)) x) from rfl]
            simp only [exbind_ok]
            rw [random_chromGo_empty choice rest (g+1) hrest]
            rfl

theorem initPopGo_props (oracle : GenOracle) (feasible : List (List ℕ)) :
    ∀ (n c : ℕ) (pop : List (List ℕ)), initPopGo oracle feasible c n = .ok pop →
    pop.length = n ∧ ∀ ch ∈ pop, ValidChrom feasible ch
  | 0, c, pop, h => by
      rw [initPopGo] at h
      rw [← Except.ok.inj h]
      exact ⟨rfl, by simp⟩
  | n+1, c, pop, h => by
      rw [initPopGo] at h
      cases hc : random_chrom (oracle.initChoice c) feasible with
      | error e => rw [hc] at h; exact absurd h (by simp)
      | ok ch =>
          rw [hc] at h
          simp only [exbind_ok] at h
          cases hr : initPopGo oracle feasible (c+1) n with
          | error e => rw [hr] at h; exact absurd h (by simp)
          | ok rest =>
              rw [hr] at h
              simp only [exbind_ok] at h
              obtain ⟨hlen, hval⟩ := initPopGo_props oracle feasible n (c+1) rest hr
              rw [← Except.ok.inj h]
              refine ⟨by simp [hlen], ?_⟩
              intro x hx
              rcases List.mem_cons.mp hx with rfl | hx'
              · exact random_chromGo_valid _ feasible 0 x hc
              · exact hval x hx'

theorem initPopGo_empty (oracle : GenOracle) (feasible : List (List ℕ))
    (hmem : ([] : List ℕ) ∈ feasible) :
    ∀ (n c : ℕ), 1 ≤ n → initPopGo oracle feasible c n = .error .emptyChoice := by
  intro n c hn
  cases n with
  | zero => exact absurd hn (by simp)
  | succ m =>
      rw [initPopGo]
      rw [show random_chrom (oracle.initChoice c) feasible =
        random_chromGo (oracle.initChoice c) 0 feasible from rfl]
      rw [random_chromGo_empty _ feasible 0 hmem]
      rfl

theorem pySample2_mem {α : Type} (o : ℕ × ℕ) (l : List α) (d : α) (p : α × α)
    (h : pySample2 o l d = .ok p) : p.1 ∈ l ∧ p.2 ∈ l := by
  by_cases hlen : l.length < 2
  · rw [pySample2, if_pos hlen] at h
    exact absurd h (by simp)
  · rw [pySample2, if_neg hlen] at h
    simp only at h
    have hl0 : 0 < l.length := by omega
    have hl1 : 0 < l.length - 1 := by omega
    rw [← Except.ok.inj h]
    constructor
    · exact nth_mem _ _ _ (Nat.mod_lt o.1 hl0)
    · refine nth_mem _ _ _ ?_
      have hj0 : o.2 % (l.length - 1) < l.length - 1 := Nat.mod_lt o.2 hl1
      by_cases hlt : o.2 % (l.length - 1) < o.1 % l.length
      · rw [if_pos hlt]; omega
      · rw [if_neg hlt]; omega

theorem selGo_props (fit : List ℕ → Except Err ℚ) (tour : ℕ → ℕ × ℕ)
    (pop : List (List ℕ)) :
    ∀ (n s : ℕ) (ps : List (List ℕ)), selGo fit tour pop s n = .ok ps →
    ps.length = n ∧ ∀ p ∈ ps, p ∈ pop
  | 0, s, ps, h => by
      rw [selGo] at h
      rw [← Except.ok.inj h]
      exact ⟨rfl, by simp⟩
  | n+1, s, ps, h => by
      rw [selGo] at h
      cases hs : pySample2 (tour s) pop ([] : List ℕ) with
      | error e => rw [hs] at h; exact absurd h (by simp)
      | ok pair =>
          rw [hs] at h
          simp only [exbind_ok] at h
          cases hm : pyMin fit [pair.1, pair.2] with
          | error e => rw [hm] at h; exact absurd h (by simp)
          | ok p =>
              rw [hm] at h
              simp only [exbind_ok] at h
              cases hr : selGo fit tour pop (s+1) n with
              | error e => rw [hr] at h; exact absurd h (by simp)
              | ok rest =>
                  rw [hr] at h
                  simp only [exbind_ok] at h
                  obtain ⟨hlen, hmem⟩ := selGo_props fit tour pop n (s+1) rest hr
                  obtain ⟨hp1, hp2⟩ := pySample2_mem (tour s) pop _ pair hs
                  have hpp : p ∈ pop := by
                    have hpl : p ∈ [pair.1, pair.2] := pyMin_mem fit [pair.1, pair.2] p hm
                    rcases List.mem_cons.mp hpl with rfl | h2
                    · exact hp1
                    · rcases List.mem_cons.mp h2 with rfl | h3
                      · exact hp2
                      · cases h3
                  rw [← Except.ok.inj h]
                  refine ⟨by simp [hlen], ?_⟩
                  intro x hx
                  rcases List.mem_cons.mp hx with rfl | hx'
                  · exact hpp
                  · exact hmem x hx'

theorem forall₂_take_append_drop {α β : Type} (R : α → β → Prop) :
    ∀ (k : ℕ) (l1 l2 : List α) (l : List β), List.Forall₂ R l1 l →
    List.Forall₂ R l2 l → List.Forall₂ R (l1.take k ++ l2.drop k) l
  | 0, l1, l2, l, _, h2 => by simpa using h2
  | k+1, l1, l2, l, h1, h2 => by
      cases h1 with
      | nil =>
          cases h2 with
          | nil => simp
      | cons ha h1' =>
          cases h2 with
          | cons hc h2' =>
              simp only [List.take_succ_cons, List.drop_succ_cons, List.cons_append]
              exact List.Forall₂.cons ha (forall₂_take_append_drop R k _ _ _ h1' h2')

theorem validChrom_set (feasible : List (List ℕ)) :
    ∀ (chrom : List ℕ) (idx g : ℕ), ValidChrom feasible chrom →
    g ∈ nth feasible idx [] → ValidChrom feasible (chrom.set idx g) := by
  intro chrom
  induction chrom generalizing feasible with
  | nil =>
      intro idx g h _
      cases h
      exact List.Forall₂.nil
  | cons c cs ih =>
      intro idx g h hg
      cases h with
      | cons hc hcs =>
          cases idx with
          | zero =>
              simp only [List.set]
              exact List.Forall₂.cons hg hcs
          | succ idx' =>
              simp only [List.set]
              exact List.Forall₂.cons hc (ih _ idx' g hcs hg)

theorem reproduce_props (cross : ℕ → ℚ) (cutO : ℕ → ℕ) (crossover_rate : ℚ)
    (n_courses : ℕ) (feasible : List (List ℕ)) :
    ∀ (parents : List (List ℕ)) (t : ℕ) (off : List (List ℕ)),
    (∀ p ∈ parents, ValidChrom feasible p) →
    reproduce cross cutO crossover_rate n_courses t parents = .ok off →
    off.length = parents.length ∧ ∀ ch ∈ off, ValidChrom feasible ch
  | [], t, off, _, h => by
      rw [reproduce] at h
      rw [← Except.ok.inj h]
      exact ⟨rfl, by simp⟩
  | [p], t, off, _, h => by
      rw [reproduce] at h
      exact absurd h (by simp)
  | p1 :: p2 :: rest, t, off, hval, h => by
      rw [reproduce] at h
      have hv1 : ValidChrom feasible p1 := hval p1 (List.mem_cons_self _ _)
      have hv2 : ValidChrom feasible p2 :=
        hval p2 (List.mem_cons_of_mem _ (List.mem_cons_self _ _))
      have hvr : ∀ p ∈ rest, ValidChrom feasible p :=
        fun p hp => hval p (List.mem_cons_of_mem _ (List.mem_cons_of_mem _ hp))
      have tail : ∀ (pair : List ℕ × List ℕ),
          ValidChrom feasible pair.1 → ValidChrom feasible pair.2 →
          (do
            let restOff ← reproduce cross cutO crossover_rate n_courses (t+1) rest
            Except.ok (pair.1 :: pair.2 :: restOff)) = .ok off →
          off.length = (p1 :: p2 :: rest).length ∧
            ∀ ch ∈ off, ValidChrom feasible ch := by
        intro pair hvp1 hvp2 htail
        cases hre : reproduce cross cutO crossover_rate n_courses (t+1) rest with
        | error e => rw [hre] at htail; exact absurd htail (by simp)
        | ok restOff =>
            rw [hre] at htail
            simp only [exbind_ok] at htail
            obtain ⟨hlen, hvo⟩ := reproduce_props cross cutO crossover_rate n_courses
              feasible rest (t+1) restOff hvr hre
            rw [← Except.ok.inj htail]
            refine ⟨by simp [hlen], ?_⟩
            intro x hx
            rcases List.mem_cons.mp hx with rfl | hx1
            · exact hvp1
            · rcases List.mem_cons.mp hx1 with rfl | hx2
              · exact hvp2
              · exact hvo x hx2
      by_cases hc : cross t < crossover_rate
      · rw [if_pos hc] at h
        cases hcut : pyRandrange (cutO t) 1 n_courses with
        | error e => rw [hcut] at h; exact absurd h (by simp)
        | ok cut =>
            rw [hcut] at h
            simp only [exbind_ok] at h
            exact tail (p1.take cut ++ p2.drop cut, p2.take cut ++ p1.drop cut)
              (forall₂_take_append_drop _ cut p1 p2 feasible hv1 hv2)
              (forall₂_take_append_drop _ cut p2 p1 feasible hv2 hv1) h
      · rw [if_neg hc] at h
        simp only [exbind_ok] at h
        exact tail (p1, p2) hv1 hv2 h

theorem mutate_props (mutO : ℕ → ℚ) (mutIdxO mutChoiceO : ℕ → ℕ)
    (mutation_rate : ℚ) (n_courses : ℕ) (feasible : List (List ℕ)) :
    ∀ (off : List (List ℕ)) (t : ℕ) (res : List (List ℕ)),
    (∀ p ∈ off, ValidChrom feasible p) →
    mutate mutO mutIdxO mutChoiceO mutation_rate n_courses feasible t off = .ok res →
    res.length = off.length ∧ ∀ ch ∈ res, ValidChrom feasible ch
  | [], t, res, _, h => by
      rw [mutate] at h
      rw [← Except.ok.inj h]
      exact ⟨rfl, by simp⟩
  | chrom :: rest, t, res, hval, h => by
      rw [mutate] at h
      have hvc : ValidChrom feasible chrom := hval chrom (List.mem_cons_self _ _)
      have hvr : ∀ p ∈ rest, ValidChrom feasible p :=
        fun p hp => hval p (List.mem_cons_of_mem _ hp)
      have tail : ∀ (chrom' : List ℕ), ValidChrom feasible chrom' →
          (do
            let rest' ← mutate mutO mutIdxO mutChoiceO mutation_rate n_courses feasible
              (t+1) rest
            Except.ok (chrom' :: rest')) = .ok res →
          res.length = (chrom :: rest).length ∧ ∀ ch ∈ res, ValidChrom feasible ch := by
        intro chrom' hvc' htail
        cases hre : mutate mutO mutIdxO mutChoiceO mutation_rate n_courses feasible
            (t+1) rest with
        | error e => rw [hre] at htail; exact absurd htail (by simp)
        | ok rest' =>
            rw [hre] at htail
            simp only [exbind_ok] at htail
            obtain ⟨hlen, hvo⟩ := mutate_props mutO mutIdxO mutChoiceO mutation_rate
              n_courses feasible rest (t+1) rest' hvr hre
            rw [← Except.ok.inj htail]
            refine ⟨by simp [hlen], ?_⟩
            intro x hx
            rcases List.mem_cons.mp hx with rfl | hx1
            · exact hvc'
            · exact hvo x hx1
      by_cases hm : mutO t < mutation_rate
      · rw [if_pos hm] at h
        cases hidx : pyRandrange (mutIdxO t) 0 n_courses with
        | error e => rw [hidx] at h; exact absurd h (by simp)
        | ok idx =>
            rw [hidx] at h
            simp only [exbind_ok] at h
            cases hg : pyChoice (mutChoiceO t) (nth feasible idx []) with
            | error e => rw [hg] at h; exact absurd h (by simp)
            | ok g =>
                rw [hg] at h
                simp only [exbind_ok] at h
                exact tail _ (validChrom_set feasible chrom idx g hvc
                  (pyChoice_mem _ _ _ hg)) h
      · rw [if_neg hm] at h
        simp only [exbind_ok] at h
        exact tail chrom hvc h

theorem keyedList_snd (fit : List ℕ → Except Err ℚ) :
    ∀ (pop ks : List _), keyedList fit pop = .ok ks →
    ks.map (fun kv => kv.2) = pop ∧ ∀ kv ∈ ks, fit kv.2 = .ok kv.1
  | [], ks, h => by
      rw [keyedList] at h
      rw [← Except.ok.inj h]
      exact ⟨rfl, by simp⟩
  | c :: rest, ks, h => by
      rw [keyedList] at h
      cases hf : fit c with
      | error e => rw [hf] at h; exact absurd h (by simp)
      | ok f =>
          rw [hf] at h
          simp only [exbind_ok] at h
          cases hr : keyedList fit rest with
          | error e => rw [hr] at h; exact absurd h (by simp)
          | ok kr =>
              rw [hr] at h
              simp only [exbind_ok] at h
              obtain ⟨hmap, hall⟩ := keyedList_snd fit rest kr hr
              rw [← Except.ok.inj h]
              refine ⟨by simp [hmap], ?_⟩
              intro kv hkv
              rcases List.mem_cons.mp hkv with rfl | hkv'
              · exact hf
              · exact hall kv hkv'

theorem keyedList_eq (fit : List ℕ → Except Err ℚ) (fP : List ℕ → ℚ) :
    ∀ (pop : List (List ℕ)), (∀ ch ∈ pop, fit ch = .ok (fP ch)) →
    keyedList fit pop = .ok (pop.map (fun c => (fP c, c)))
  | [], _ => rfl
  | c :: rest, h => by
      rw [keyedList, h c (List.mem_cons_self _ _)]
      simp only [exbind_ok]
      rw [keyedList_eq fit fP rest (fun x hx => h x (List.mem_cons_of_mem _ hx))]
      simp only [exbind_ok, List.map_cons]

theorem insertBy_mem {α : Type} (le : α → α → Bool) (x : α) (l : List α) (z : α)
    (h : z ∈ insertBy le x l) : z = x ∨ z ∈ l :=
  List.mem_cons.mp ((insertBy_perm le x l).mem_iff.mp h)

theorem insertBy_pairwise {α : Type} (le : α → α → Bool)
    (htot : ∀ a b, le a b = true ∨ le b a = true)
    (htrans : ∀ a b c, le a b = true → le b c = true → le a c = true) :
    ∀ (l : List α), l.Pairwise (fun a b => le a b = true) → ∀ (x : α),
    (insertBy le x l).Pairwise (fun a b => le a b = true)
  | [], _, x => by simp [insertBy]
  | y :: ys, hp, x => by
      rw [List.pairwise_cons] at hp
      rw [insertBy]
      by_cases hxy : le x y = true
      · rw [if_pos hxy]
        refine List.Pairwise.cons ?_ (List.Pairwise.cons hp.1 hp.2)
        intro z hz
        rcases List.mem_cons.mp hz with rfl | hzys
        · exact hxy
        · exact htrans x y z hxy (hp.1 z hzys)
      · rw [if_neg hxy]
        have hyx : le y x = true := by
          rcases htot x y with h | h
          · exact absurd h hxy
          · exact h
        refine List.Pairwise.cons ?_ (insertBy_pairwise le htot htrans ys hp.2 x)
        intro z hz
        rcases insertBy_mem le x ys z hz with rfl | hzys
        · exact hyx
        · exact hp.1 z hzys

theorem sortByStable_pairwise {α : Type} (le : α → α → Bool)
    (htot : ∀ a b, le a b = true ∨ le b a = true)
    (htrans : ∀ a b c, le a b = true → le b c = true → le a c = true) :
    ∀ (l : List α), (sortByStable le l).Pairwise (fun a b => le a b = true)
  | [] => List.Pairwise.nil
  | x :: xs => by
      rw [sortByStable]
      exact insertBy_pairwise le htot htrans _
        (sortByStable_pairwise le htot htrans xs) x

theorem foldl_min_le_init : ∀ (xs : List ℚ) (x : ℚ), xs.foldl min x ≤ x
  | [], x => le_refl x
  | y :: ys, x => le_trans (foldl_min_le_init ys (min x y)) (min_le_left x y)

theorem foldl_min_le_mem : ∀ (xs : List ℚ) (x : ℚ), ∀ y ∈ xs, xs.foldl min x ≤ y
  | [], _, y, hy => absurd hy (by simp)
  | z :: zs, x, y, hy => by
      rcases List.mem_cons.mp hy with rfl | hy'
      · exact le_trans (foldl_min_le_init zs (min x y)) (min_le_right x y)
      · exact foldl_min_le_mem zs (min x z) y hy'

theorem foldl_min_mem : ∀ (xs : List ℚ) (x : ℚ), xs.foldl min x = x ∨ xs.foldl min x ∈ xs
  | [], x => Or.inl rfl
  | y :: ys, x => by
      rcases foldl_min_mem ys (min x y) with h | h
      · rcases min_choice x y with hm | hm
        · exact Or.inl (by rw [List.foldl_cons, h, hm])
        · refine Or.inr ?_
          rw [List.foldl_cons, h, hm]
          exact List.mem_cons_self _ _
      · exact Or.inr (List.mem_cons_of_mem _ h)

theorem listMinQ_le (l : List ℚ) (m : ℚ) (h : listMinQ l = some m) :
    ∀ y ∈ l, m ≤ y := by
  cases l with
  | nil => cases h
  | cons x xs =>
      rw [listMinQ] at h
      intro y hy
      rw [← Option.some.inj h]
      rcases List.mem_cons.mp hy with rfl | hy'
      · exact foldl_min_le_init xs y
      · exact foldl_min_le_mem xs x y hy'

theorem listMinQ_mem (l : List ℚ) (m : ℚ) (h : listMinQ l = some m) : m ∈ l := by
  cases l with
  | nil => cases h
  | cons x xs =>
      rw [listMinQ] at h
      rw [← Option.some.inj h]
      rcases foldl_min_mem xs x with h1 | h1
      · rw [h1]; exact List.mem_cons_self _ _
      · exact List.mem_cons_of_mem _ h1

theorem idxE_of_drop {α : Type} : ∀ (l : List α) (i : ℕ) (c : α) (cs : List α),
    l.drop i = c :: cs → idxE l i = .ok c
  | [], i, c, cs, h => by rw [List.drop_nil] at h; cases h
  | x :: xs, 0, c, cs, h => by
      rw [List.drop_zero] at h
      rw [idxE, (List.cons.inj h).1]
  | x :: xs, i+1, c, cs, h => idxE_of_drop xs i c cs (by simpa using h)

theorem nth_of_drop {α : Type} : ∀ (l : List α) (i : ℕ) (c : α) (cs : List α) (d : α),
    l.drop i = c :: cs → nth l i d = c
  | [], i, c, cs, _, h => by rw [List.drop_nil] at h; cases h
  | x :: xs, 0, c, cs, d, h => by
      rw [List.drop_zero] at h
      rw [show nth (x :: xs) 0 d = x from rfl, (List.cons.inj h).1]
  | x :: xs, i+1, c, cs, d, h => nth_of_drop xs i c cs d (by simpa using h)

theorem idxE_lt {α : Type} : ∀ (l : List α) (i : ℕ), i < l.length → ∀ d,
    idxE l i = .ok (nth l i d)
  | [], i, h, _ => absurd h (by simp)
  | x :: xs, 0, _, d => rfl
  | x :: xs, i+1, h, d => idxE_lt xs i (by simpa using h) d

theorem mem_idxE {α : Type} : ∀ (l : List α) (a : α), a ∈ l →
    ∃ i, i < l.length ∧ idxE l i = .ok a
  | [], a, h => absurd h (by simp)
  | x :: xs, a, h => by
      rcases List.mem_cons.mp h with rfl | h'
      · exact ⟨0, by simp, rfl⟩
      · obtain ⟨i, hi, hidx⟩ := mem_idxE xs a h'
        exact ⟨i+1, by simpa using hi, hidx⟩

theorem feasibleFor_mem (rooms : List Room) (course : Course) (g : ℕ)
    (h : g ∈ feasibleFor rooms course) :
    g < rooms.length ∧ course.size ≤ (nth rooms g roomJunk).capacity := by
  obtain ⟨hr, hf⟩ := List.mem_filter.mp h
  rw [Bool.and_eq_true] at hf
  exact ⟨List.mem_range.mp hr, of_decide_eq_true hf.1⟩

theorem idxE_ok_nth {α : Type} : ∀ (l : List α) (i : ℕ) (a : α) (d : α),
    idxE l i = .ok a → nth l i d = a
  | [], i, a, d, h => absurd h (by simp [idxE])
  | x :: xs, 0, a, d, h => Except.ok.inj h
  | x :: xs, i+1, a, d, h => idxE_ok_nth xs i a d h

theorem travel_cost_ok_students (dist : Point → Point → ℚ)
    (sampler : Course → List Person) (course : Course) (room : Room) (v : ℚ)
    (h : travel_cost dist sampler course room = .ok v) : course.students ≠ [] := by
  intro hs
  rw [show travel_cost dist sampler course room = .error .divByZero by
    simp [travel_cost, hs]] at h
  cases h

theorem fitnessGo_ok_val (dist : Point → Point → ℚ) (sampler : Course → List Person)
    (courses : List Course) (rooms : List Room) :
    ∀ (chrom : List ℕ) (i : ℕ) (v : ℚ),
    fitnessGo dist sampler courses rooms i chrom = .ok v →
    v = fitPGo dist sampler courses rooms i chrom
  | [], i, v, h => by
      rw [fitnessGo] at h
      rw [← Except.ok.inj h]
      rfl
  | gene :: rest, i, v, h => by
      rw [fitnessGo] at h
      cases hcc : idxE courses i with
      | error e => rw [hcc] at h; exact absurd h (by simp)
      | ok c =>
          rw [hcc] at h
          simp only [exbind_ok] at h
          cases hrr : idxE rooms gene with
          | error e => rw [hrr] at h; exact absurd h (by simp)
          | ok r =>
              rw [hrr] at h
              simp only [exbind_ok] at h
              cases htc : travel_cost dist sampler c r with
              | error e => rw [htc] at h; exact absurd h (by simp)
              | ok tc =>
                  rw [htc] at h
                  simp only [exbind_ok] at h
                  cases hrest : fitnessGo dist sampler courses rooms (i+1) rest with
                  | error e => rw [hrest] at h; exact absurd h (by simp)
                  | ok rv =>
                      rw [hrest] at h
                      simp only [exbind_ok] at h
                      rw [← Except.ok.inj h, fitPGo]
                      rw [idxE_ok_nth courses i c courseJunk hcc,
                        idxE_ok_nth rooms gene r roomJunk hrr]
                      rw [travel_cost_ok_val dist sampler c r tc htc,
                        fitnessGo_ok_val dist sampler courses rooms rest (i+1) rv hrest]

theorem fitness_ok_val (dist : Point → Point → ℚ) (sampler : Course → List Person)
    (courses : List Course) (rooms : List Room) (chrom : List ℕ) (v : ℚ)
    (h : fitness dist sampler courses rooms chrom = .ok v) :
    v = fitP dist sampler courses rooms chrom :=
  fitnessGo_ok_val dist sampler courses rooms chrom 0 v h

theorem fitnessGo_students (dist : Point → Point → ℚ) (sampler : Course → List Person)
    (courses : List Course) (rooms : List Room) :
    ∀ (chrom : List ℕ) (i : ℕ) (v : ℚ),
    fitnessGo dist sampler courses rooms i chrom = .ok v →
    ∀ j, j < chrom.length → ∀ c, idxE courses (i + j) = .ok c → c.students ≠ []
  | [], i, v, h, j, hj, c, hc => absurd hj (by simp)
  | gene :: rest, i, v, h, j, hj, c, hc => by
      rw [fitnessGo] at h
      cases hcc : idxE courses i with
      | error e => rw [hcc] at h; exact absurd h (by simp)
      | ok c0 =>
          rw [hcc] at h
          simp only [exbind_ok] at h
          cases hrr : idxE rooms gene with
          | error e => rw [hrr] at h; exact absurd h (by simp)
          | ok r =>
              rw [hrr] at h
              simp only [exbind_ok] at h
              cases htc : travel_cost dist sampler c0 r with
              | error e => rw [htc] at h; exact absurd h (by simp)
              | ok tc =>
                  rw [htc] at h
                  simp only [exbind_ok] at h
                  cases hrest : fitnessGo dist sampler courses rooms (i+1) rest with
                  | error e => rw [hrest] at h; exact absurd h (by simp)
                  | ok rv =>
                      cases j with
                      | zero =>
                          rw [Nat.add_zero] at hc
                          rw [hcc] at hc
                          rw [← Except.ok.inj hc]
                          exact travel_cost_ok_students dist sampler c0 r tc htc
                      | succ j' =>
                          have hidx : idxE courses ((i+1) + j') = .ok c := by
                            rw [show (i+1) + j' = i + (j'+1) by omega]
                            exact hc
                          exact fitnessGo_students dist sampler courses rooms rest
                            (i+1) rv hrest j' (by simpa using hj) c hidx

theorem validChrom_forall₂ (courses : List Course) (rooms : List Room)
    (chrom : List ℕ) (h : ValidChrom (feasible_rooms courses rooms) chrom) :
    List.Forall₂ (fun g c => g ∈ feasibleFor rooms c) chrom courses := by
  rw [ValidChrom, feasible_rooms, List.forall₂_map_right_iff] at h
  exact h

theorem validChrom_length (courses : List Course) (rooms : List Room)
    (chrom : List ℕ) (h : ValidChrom (feasible_rooms courses rooms) chrom) :
    chrom.length = courses.length := by
  have h1 := List.Forall₂.length_eq h
  simpa [feasible_rooms] using h1

theorem fitness_err (dist : Point → Point → ℚ) (sampler : Course → List Person)
    (courses : List Course) (rooms : List Room) (chrom : List ℕ)
    (hv : ValidChrom (feasible_rooms courses rooms) chrom)
    (c : Course) (hc : c ∈ courses) (hs : c.students = []) :
    ∀ v, fitness dist sampler courses rooms chrom ≠ .ok v := by
  intro v hok
  obtain ⟨i, hi, hidx⟩ := mem_idxE courses c hc
  have hlen : chrom.length = courses.length := validChrom_length courses rooms chrom hv
  refine fitnessGo_students dist sampler courses rooms chrom 0 v hok i (by omega) c ?_ hs
  simpa using hidx

theorem sortByFitness_spec (dist : Point → Point → ℚ) (sampler : Course → List Person)
    (courses : List Course) (rooms : List Room) (pop sorted : List (List ℕ))
    (h : sortByFitness (fitness dist sampler courses rooms) pop = .ok sorted) :
    sorted.Perm pop ∧
    ∀ x ∈ pop, ∀ y tl, sorted = y :: tl →
      fitP dist sampler courses rooms y ≤ fitP dist sampler courses rooms x := by
  rw [sortByFitness] at h
  cases hk : keyedList (fitness dist sampler courses rooms) pop with
  | error e => rw [hk] at h; exact absurd h (by simp)
  | ok keyed =>
      rw [hk] at h
      simp only [exbind_ok] at h
      obtain ⟨hmap, hfit⟩ := keyedList_snd _ pop keyed hk
      have hsorted : sorted = (sortByStable (fun a b => decide (a.1 ≤ b.1)) keyed).map
          (fun kv => kv.2) := (Except.ok.inj h).symm
      have hperm : sorted.Perm pop := by
        rw [hsorted, ← hmap]
        exact List.Perm.map (fun kv => kv.2) (sortByStable_perm _ keyed)
      refine ⟨hperm, ?_⟩
      intro x hx y tl hy
      have hx' : x ∈ keyed.map (fun kv => kv.2) := by rw [hmap]; exact hx
      obtain ⟨kx, hkx, hkx2⟩ := List.mem_map.mp hx'
      cases hs : sortByStable (fun a b => decide (a.1 ≤ b.1)) keyed with
      | nil => rw [hsorted, hs] at hy; cases hy
      | cons ky ktl =>
          rw [hsorted, hs] at hy
          simp only [List.map_cons, List.cons.injEq] at hy
          have hpw := sortByStable_pairwise (fun a b => decide (a.1 ≤ b.1))
            (fun a b => by
              rcases le_total a.1 b.1 with h1 | h1
              · exact Or.inl (decide_eq_true h1)
              · exact Or.inr (decide_eq_true h1))
            (fun a b c hab hbc =>
              decide_eq_true (le_trans (of_decide_eq_true hab) (of_decide_eq_true hbc)))
            keyed
          rw [hs, List.pairwise_cons] at hpw
          have hkxmem : kx ∈ ky :: ktl := by
            rw [← hs]
            exact ((sortByStable_perm _ keyed).mem_iff).mpr hkx
          have hle : ky.1 ≤ kx.1 := by
            rcases List.mem_cons.mp hkxmem with heq | hmem
            · rw [heq]
            · exact of_decide_eq_true (hpw.1 kx hmem)
          have hkymem : ky ∈ keyed := ((sortByStable_perm _ keyed).mem_iff).mp
            (by rw [hs]; exact List.mem_cons_self _ _)
          have hky1 : ky.1 = fitP dist sampler courses rooms ky.2 :=
            fitness_ok_val dist sampler courses rooms ky.2 ky.1 (hfit ky hkymem)
          have hkx1 : kx.1 = fitP dist sampler courses rooms kx.2 :=
            fitness_ok_val dist sampler courses rooms kx.2 kx.1 (hfit kx hkx)
          rw [← hy.1, ← hkx2, ← hky1, ← hkx1]
          exact hle

theorem gen_step_master (dist : Point → Point → ℚ) (sampler : Course → List Person)
    (courses : List Course) (rooms : List Room) (feasible : List (List ℕ))
    (oracle : GenOracle) (pop_size : ℕ) (cr mr : ℚ) (g : ℕ)
    (pop pop' : List (List ℕ))
    (hvp : ∀ ch ∈ pop, ValidChrom feasible ch)
    (hlen : pop.length = pop_size)
    (hok : gen_step dist sampler courses rooms feasible oracle pop_size cr mr g pop
      = .ok pop') :
    (∀ ch ∈ pop', ValidChrom feasible ch) ∧ pop'.length = pop_size ∧
    ∀ b : ℚ, (∃ ch ∈ pop, fitP dist sampler courses rooms ch ≤ b) →
      ∃ ch' ∈ pop', fitP dist sampler courses rooms ch' ≤ b := by
  rw [gen_step] at hok
  cases hsel : selectParents (fitness dist sampler courses rooms) (oracle.tour g)
      pop pop_size with
  | error e => rw [hsel] at hok; exact absurd hok (by simp)
  | ok parents =>
      rw [hsel] at hok
      simp only [exbind_ok] at hok
      obtain ⟨hplen, hpmem⟩ := selGo_props _ _ pop pop_size 0 parents hsel
      cases hrep : reproduce (oracle.cross g) (oracle.cut g) cr courses.length 0
          parents with
      | error e => rw [hrep] at hok; exact absurd hok (by simp)
      | ok off =>
          rw [hrep] at hok
          simp only [exbind_ok] at hok
          obtain ⟨holen, hoval⟩ := reproduce_props _ _ cr courses.length feasible
            parents 0 off (fun p hp => hvp p (hpmem p hp)) hrep
          cases hmut : mutate (oracle.mutP g) (oracle.mutIdx g) (oracle.mutChoice g)
              mr courses.length feasible 0 off with
          | error e => rw [hmut] at hok; exact absurd hok (by simp)
          | ok mutated =>
              rw [hmut] at hok
              simp only [exbind_ok] at hok
              obtain ⟨hmlen, hmval⟩ := mutate_props _ _ _ mr courses.length feasible
                off 0 mutated hoval hmut
              cases hsort : sortByFitness (fitness dist sampler courses rooms)
                  (pop ++ mutated) with
              | error e => rw [hsort] at hok; exact absurd hok (by simp)
              | ok sorted =>
                  rw [hsort] at hok
                  simp only [exbind_ok] at hok
                  have hpop' : pop' = sorted.take pop_size := (Except.ok.inj hok).symm
                  obtain ⟨hperm, hbound⟩ := sortByFitness_spec dist sampler courses rooms
                    (pop ++ mutated) sorted hsort
                  have hmerval : ∀ ch ∈ pop ++ mutated, ValidChrom feasible ch := by
                    intro ch hch
                    rcases List.mem_append.mp hch with h1 | h1
                    · exact hvp ch h1
                    · exact hmval ch h1
                  refine ⟨?_, ?_, ?_⟩
                  · intro ch hch
                    rw [hpop'] at hch
                    exact hmerval ch (hperm.mem_iff.mp (List.take_subset _ _ hch))
                  · rw [hpop', List.length_take, hperm.length_eq, List.length_append,
                      hlen, hmlen, holen, hplen]
                    omega
                  · rintro b ⟨ch, hch, hchb⟩
                    have hchm : ch ∈ sorted :=
                      hperm.mem_iff.mpr (List.mem_append.mpr (Or.inl hch))
                    cases hse : sorted with
                    | nil => rw [hse] at hchm; cases hchm
                    | cons y tl =>
                        have hyb : fitP dist sampler courses rooms y ≤
                            fitP dist sampler courses rooms ch :=
                          hbound ch (List.mem_append.mpr (Or.inl hch)) y tl hse
                        cases hps : pop_size with
                        | zero =>
                            rw [hps] at hlen
                            rw [List.length_eq_zero] at hlen
                            rw [hlen] at hch
                            cases hch
                        | succ k =>
                            refine ⟨y, ?_, le_trans hyb hchb⟩
                            rw [hpop', hse, hps, List.take_succ_cons]
                            exact List.mem_cons_self _ _

theorem evolve_master (dist : Point → Point → ℚ) (sampler : Course → List Person)
    (courses : List Course) (rooms : List Room) (feasible : List (List ℕ))
    (oracle : GenOracle) (pop_size : ℕ) (cr mr : ℚ) :
    ∀ (n g : ℕ) (pop pF : List (List ℕ)),
    (∀ ch ∈ pop, ValidChrom feasible ch) → pop.length = pop_size →
    evolve dist sampler courses rooms feasible oracle pop_size cr mr g n pop = .ok pF →
    (∀ ch ∈ pF, ValidChrom feasible ch) ∧ pF.length = pop_size ∧
    ∀ b : ℚ, (∃ ch ∈ pop, fitP dist sampler courses rooms ch ≤ b) →
      ∃ ch' ∈ pF, fitP dist sampler courses rooms ch' ≤ b
  | 0, g, pop, pF, hvp, hlen, h => by
      rw [evolve] at h
      rw [← Except.ok.inj h]
      exact ⟨hvp, hlen, fun b hb => hb⟩
  | n+1, g, pop, pF, hvp, hlen, h => by
      rw [evolve] at h
      cases hst : gen_step dist sampler courses rooms feasible oracle pop_size
          cr mr g pop with
      | error e => rw [hst] at h; exact absurd h (by simp)
      | ok pop' =>
          rw [hst] at h
          simp only [exbind_ok] at h
          obtain ⟨hv', hl', hb'⟩ := gen_step_master dist sampler courses rooms feasible
            oracle pop_size cr mr g pop pop' hvp hlen hst
          obtain ⟨hvF, hlF, hbF⟩ := evolve_master dist sampler courses rooms feasible
            oracle pop_size cr mr n (g+1) pop' pF hv' hl' h
          exact ⟨hvF, hlF, fun b hb => hbF b (hb' b hb)⟩

theorem genetic_allocate_cases (dist : Point → Point → ℚ)
    (sampler : Course → List Person) (oracle : GenOracle) (courses : List Course)
    (rooms : List Room) (pop_size generations : ℕ) (cr mr : ℚ) (m : Alloc)
    (h : genetic_allocate dist sampler oracle courses rooms pop_size generations
      cr mr = .ok m) :
    ∃ p0 pF best,
      initPop oracle (feasible_rooms courses rooms) pop_size = .ok p0 ∧
      evolve dist sampler courses rooms (feasible_rooms courses rooms) oracle pop_size
        cr mr 0 generations p0 = .ok pF ∧
      pyMin (fitness dist sampler courses rooms) pF = .ok best ∧
      buildAllocGo rooms courses best [] = .ok m := by
  have h' : (do
      let population ← initPop oracle (feasible_rooms courses rooms) pop_size
      let finalPop ← evolve dist sampler courses rooms (feasible_rooms courses rooms)
        oracle pop_size cr mr 0 generations population
      let best ← pyMin (fitness dist sampler courses rooms) finalPop
      buildAllocGo rooms courses best [] : Except Err Alloc) = .ok m := h
  cases hI : initPop oracle (feasible_rooms courses rooms) pop_size with
  | error e => rw [hI] at h'; exact absurd h' (by simp)
  | ok p0 =>
      rw [hI] at h'
      simp only [exbind_ok] at h'
      cases hE : evolve dist sampler courses rooms (feasible_rooms courses rooms)
          oracle pop_size cr mr 0 generations p0 with
      | error e => rw [hE] at h'; exact absurd h' (by simp)
      | ok pF =>
          rw [hE] at h'
          simp only [exbind_ok] at h'
          cases hM : pyMin (fitness dist sampler courses rooms) pF with
          | error e => rw [hM] at h'; exact absurd h' (by simp)
          | ok best =>
              rw [hM] at h'
              simp only [exbind_ok] at h'
              exact ⟨p0, pF, best, rfl, hE, hM, h'⟩

theorem pyMin_ok_head {α : Type} (key : α → Except Err ℚ) (x : α) (xs : List α)
    (a : α) (h : pyMin key (x :: xs) = .ok a) : ∃ kx, key x = .ok kx := by
  cases hk : key x with
  | error e =>
      rw [pyMin_head_error key x xs e hk] at h
      cases h
  | ok kx => exact ⟨kx, rfl⟩

theorem buildAllocGo_spec (rooms : List Room) :
    ∀ (cs : List Course) (gs : List ℕ) (acc m : Alloc),
    List.Forall₂ (fun g c => g ∈ feasibleFor rooms c) gs cs →
    buildAllocGo rooms cs gs acc = .ok m →
    ∀ k rid, aGet m k = some rid →
      aGet acc k = some rid ∨
        ∃ c ∈ cs, c.id = k ∧ ∃ r ∈ rooms, r.id = rid ∧ c.size ≤ r.capacity
  | cs, gs, acc, m, hff, h, k, rid, hget => by
      cases hff with
      | nil =>
          rw [buildAllocGo] at h
          rw [← Except.ok.inj h] at hget
          exact Or.inl hget
      | cons hg hrest =>
          rename_i g c gs' cs'
          rw [buildAllocGo] at h
          obtain ⟨hglt, hcap⟩ := feasibleFor_mem rooms c g hg
          rw [idxE_lt rooms g hglt roomJunk] at h
          simp only [exbind_ok] at h
          rcases buildAllocGo_spec rooms cs' gs' (aSet acc c.id (nth rooms g roomJunk).id)
              m hrest h k rid hget with h1 | h1
          · rw [aGet_aSet] at h1
            by_cases hk : k = c.id
            · rw [if_pos hk] at h1
              refine Or.inr ⟨c, List.mem_cons_self _ _, hk.symm,
                nth rooms g roomJunk, nth_mem rooms g roomJunk hglt, ?_, hcap⟩
              exact Option.some.inj h1
            · rw [if_neg hk] at h1
              exact Or.inl h1
          · obtain ⟨c', hc', hck, hr⟩ := h1
            exact Or.inr ⟨c', List.mem_cons_of_mem _ hc', hck, hr⟩

theorem genetic_capacity (dist : Point → Point → ℚ) (sampler : Course → List Person)
    (oracle : GenOracle) (courses : List Course) (rooms : List Room)
    (pop_size generations : ℕ) (cr mr : ℚ)
    (hnod : (courses.map Course.id).Nodup) (m : Alloc)
    (h : genetic_allocate dist sampler oracle courses rooms pop_size generations
      cr mr = .ok m) :
    ∀ c ∈ courses, ∀ rid, aGet m c.id = some rid →
      ∃ r ∈ rooms, r.id = rid ∧ c.size ≤ r.capacity := by
  intro c hc rid hget
  obtain ⟨p0, pF, best, hI, hE, hM, hB⟩ := genetic_allocate_cases dist sampler oracle
    courses rooms pop_size generations cr mr m h
  obtain ⟨hlen0, hval0⟩ := initPopGo_props oracle (feasible_rooms courses rooms)
    pop_size 0 p0 hI
  obtain ⟨hvalF, hlenF, _⟩ := evolve_master dist sampler courses rooms
    (feasible_rooms courses rooms) oracle pop_size cr mr generations 0 p0 pF
    hval0 hlen0 hE
  have hvb : ValidChrom (feasible_rooms courses rooms) best :=
    hvalF best (pyMin_mem _ pF best hM)
  rcases buildAllocGo_spec rooms courses best [] m
      (validChrom_forall₂ courses rooms best hvb) hB c.id rid hget with h1 | h1
  · exact absurd h1 (by simp [aGet])
  · obtain ⟨c', hc', hck, r, hr, hrid, hcap⟩ := h1
    have : c' = c := nodup_map_inj hnod hc' hc hck
    rw [this] at hcap
    exact ⟨r, hr, hrid, hcap⟩

theorem genetic_allocate_empty_roster (dist : Point → Point → ℚ)
    (sampler : Course → List Person) (oracle : GenOracle) (courses : List Course)
    (rooms : List Room) (pop_size generations : ℕ) (cr mr : ℚ)
    (c : Course) (hc : c ∈ courses) (hs : c.students = []) :
    ∀ m, genetic_allocate dist sampler oracle courses rooms pop_size generations
      cr mr ≠ .ok m := by
  intro m h
  obtain ⟨p0, pF, best, hI, hE, hM, hB⟩ := genetic_allocate_cases dist sampler oracle
    courses rooms pop_size generations cr mr m h
  obtain ⟨hlen0, hval0⟩ := initPopGo_props oracle (feasible_rooms courses rooms)
    pop_size 0 p0 hI
  obtain ⟨hvalF, hlenF, _⟩ := evolve_master dist sampler courses rooms
    (feasible_rooms courses rooms) oracle pop_size cr mr generations 0 p0 pF
    hval0 hlen0 hE
  cases pF with
  | nil => exact absurd hM (by simp [pyMin])
  | cons x xs =>
      obtain ⟨kx, hkx⟩ := pyMin_ok_head _ x xs best hM
      exact fitness_err dist sampler courses rooms x
        (hvalF x (List.mem_cons_self _ _)) c hc hs kx hkx

theorem reproduce_length (cross : ℕ → ℚ) (cutO : ℕ → ℕ) (crossover_rate : ℚ)
    (n_courses : ℕ) :
    ∀ (parents : List (List ℕ)) (t : ℕ) (off : List (List ℕ)),
    reproduce cross cutO crossover_rate n_courses t parents = .ok off →
    off.length = parents.length
  | [], t, off, h => by
      rw [reproduce] at h
      rw [← Except.ok.inj h]
  | [p], t, off, h => by
      rw [reproduce] at h
      exact absurd h (by simp)
  | p1 :: p2 :: rest, t, off, h => by
      rw [reproduce] at h
      have tail : ∀ (pair : List ℕ × List ℕ),
          (do
            let restOff ← reproduce cross cutO crossover_rate n_courses (t+1) rest
            Except.ok (pair.1 :: pair.2 :: restOff)) = .ok off →
          off.length = (p1 :: p2 :: rest).length := by
        intro pair htail
        cases hre : reproduce cross cutO crossover_rate n_courses (t+1) rest with
        | error e => rw [hre] at htail; exact absurd htail (by simp)
        | ok restOff =>
            rw [hre] at htail
            simp only [exbind_ok] at htail
            have hlen := reproduce_length cross cutO crossover_rate n_courses rest
              (t+1) restOff hre
            rw [← Except.ok.inj htail]
            simp [hlen]
      by_cases hc : cross t < crossover_rate
      · rw [if_pos hc] at h
        cases hcut : pyRandrange (cutO t) 1 n_courses with
        | error e => rw [hcut] at h; exact absurd h (by simp)
        | ok cut =>
            rw [hcut] at h
            simp only [exbind_ok] at h
            exact tail (p1.take cut ++ p2.drop cut, p2.take cut ++ p1.drop cut) h
      · rw [if_neg hc] at h
        simp only [exbind_ok] at h
        exact tail (p1, p2) h

/-! ## Claim theorems: C2, C3, C4, C6, C9, C10 -/

/-- C4, counterexample to the claim as stated: with a single course whose
feasible-room list is empty, `genetic_allocate` does not raise an explicit
precondition failure — the `IndexError` of `rng.choice([])` inside
`random_chrom` propagates out (embedded as `Err.emptyChoice`). -/
theorem c4_counterexample :
    feasible_rooms [courseHuge] [roomBig] = [[]] ∧
    genetic_allocate distZero samplerNil oracleZero [courseHuge] [roomBig] 1 0 0 0 =
      .error .emptyChoice := by
  decide

/-- C4, corrected: when some course's precomputed feasible-room list is
empty and the population is nonempty, `genetic_allocate` fails before any
generation runs — but with the propagated selection-from-empty error
(`rng.choice([])`, embedded as `Err.emptyChoice`) raised while building the
initial population, not with an explicit precondition failure. -/
theorem c4_genetic_empty_feasible (dist : Point → Point → ℚ)
    (sampler : Course → List Person) (oracle : GenOracle) (courses : List Course)
    (rooms : List Room) (pop_size generations : ℕ) (cr mr : ℚ)
    (hmem : ([] : List ℕ) ∈ feasible_rooms courses rooms) (hps : 1 ≤ pop_size) :
    initPop oracle (feasible_rooms courses rooms) pop_size = .error .emptyChoice ∧
    genetic_allocate dist sampler oracle courses rooms pop_size generations cr mr =
      .error .emptyChoice := by
  have hin : initPop oracle (feasible_rooms courses rooms) pop_size =
      .error .emptyChoice :=
    initPopGo_empty oracle (feasible_rooms courses rooms) hmem pop_size 0 hps
  refine ⟨hin, ?_⟩
  show (do
      let population ← initPop oracle (feasible_rooms courses rooms) pop_size
      let finalPop ← evolve dist sampler courses rooms (feasible_rooms courses rooms)
        oracle pop_size cr mr 0 generations population
      let best ← pyMin (fitness dist sampler courses rooms) finalPop
      buildAllocGo rooms courses best [] : Except Err Alloc) = .error .emptyChoice
  rw [hin]
  rfl

/-- C4, witness: the corrected statement at the concrete one-course,
one-small-room instance. -/
theorem c4_genetic_empty_feasible_witness :
    initPop oracleZero (feasible_rooms [courseHuge] [roomBig]) 1 =
      .error .emptyChoice ∧
    genetic_allocate distZero samplerNil oracleZero [courseHuge] [roomBig] 1 0 0 0 =
      .error .emptyChoice :=
  c4_genetic_empty_feasible distZero samplerNil oracleZero [courseHuge] [roomBig]
    1 0 0 0 (by decide) (by decide)

/-- C6: under exact-mode fitness evaluation (hypothesis `hexact`, under
which the embedded fitness is deterministic), in every `genetic_allocate`
run — initial population `p0`, final population `pF` after `generations`
replacement steps, each merging the current population with its offspring,
sorting ascending by fitness, and keeping the best `pop_size` — the best
final fitness is at most the best initial fitness. -/
theorem c6_genetic_best_fitness_monotone (dist : Point → Point → ℚ)
    (sampler : Course → List Person) (oracle : GenOracle) (courses : List Course)
    (rooms : List Room) (pop_size generations : ℕ) (cr mr : ℚ)
    (hexact : ∀ c ∈ courses, c.students ≠ [] ∧ c.students.length ≤ sampleCap)
    (p0 pF : List (List ℕ)) (m0 mF : ℚ)
    (hinit : initPop oracle (feasible_rooms courses rooms) pop_size = .ok p0)
    (hev : evolve dist sampler courses rooms (feasible_rooms courses rooms) oracle
      pop_size cr mr 0 generations p0 = .ok pF)
    (hm0 : listMinQ (p0.map (fitP dist sampler courses rooms)) = some m0)
    (hmF : listMinQ (pF.map (fitP dist sampler courses rooms)) = some mF) :
    mF ≤ m0 := by
  obtain ⟨hlen0, hval0⟩ := initPopGo_props oracle (feasible_rooms courses rooms)
    pop_size 0 p0 hinit
  obtain ⟨hvalF, hlenF, hbound⟩ := evolve_master dist sampler courses rooms
    (feasible_rooms courses rooms) oracle pop_size cr mr generations 0 p0 pF
    hval0 hlen0 hev
  obtain ⟨ch, hch, hchm⟩ := List.mem_map.mp (listMinQ_mem _ m0 hm0)
  obtain ⟨ch', hch', hch'le⟩ := hbound m0 ⟨ch, hch, le_of_eq hchm⟩
  exact le_trans (listMinQ_le _ mF hmF (fitP dist sampler courses rooms ch')
    (List.mem_map_of_mem _ hch')) hch'le

/-- C6, witness: a concrete one-course, one-room run with population 2 and
one generation; both best fitnesses evaluate to `0`. -/
theorem c6_genetic_best_fitness_monotone_witness : (0 : ℚ) ≤ 0 :=
  c6_genetic_best_fitness_monotone distZero samplerNil oracleZero [course1] [roomBig]
    2 1 0 0 (by decide) [[0], [0]] [[0], [0]] 0 0 (by decide) (by decide)
    (by decide) (by decide)

/-- C9: tournament selection returns exactly `pop_size` parents whenever it
succeeds, and pairwise reproduction returns exactly as many offspring as
there are parents whenever it succeeds. -/
theorem c9_reproduction_counts :
    (∀ (fit : List ℕ → Except Err ℚ) (tour : ℕ → ℕ × ℕ) (pop : List (List ℕ))
      (pop_size : ℕ) (parents : List (List ℕ)),
      selectParents fit tour pop pop_size = .ok parents →
      parents.length = pop_size) ∧
    (∀ (cross : ℕ → ℚ) (cutO : ℕ → ℕ) (crossover_rate : ℚ) (n_courses t : ℕ)
      (parents off : List (List ℕ)),
      reproduce cross cutO crossover_rate n_courses t parents = .ok off →
      off.length = parents.length) :=
  ⟨fun fit tour pop pop_size parents h =>
      (selGo_props fit tour pop pop_size 0 parents h).1,
   fun cross cutO crossover_rate n_courses t parents off h =>
      reproduce_length cross cutO crossover_rate n_courses parents t off h⟩

/-- C9, witness: a concrete tournament over a two-chromosome population and
a concrete cloning reproduction, both applied through the claim theorem. -/
theorem c9_reproduction_counts_witness :
    ([[0], [0]] : List (List ℕ)).length = 2 ∧
    ([[0], [0]] : List (List ℕ)).length = ([[0], [0]] : List (List ℕ)).length :=
  ⟨c9_reproduction_counts.1 (fun _ => .ok 0) (fun _ => (0, 1)) [[0], [1]] 2
      [[0], [0]] (by decide),
   c9_reproduction_counts.2 (fun _ => 0) (fun _ => 0) 0 1 0 [[0], [0]] [[0], [0]]
      (by decide)⟩

/-- C2: every successful allocator run respects capacities.  Greedy: every
assigned room of the returned mapping holds its course.  Local search:
the capacity invariant `capOKL` of the input allocation is preserved by the
returned one.  Genetic: every assigned room of the returned mapping holds
its course (genes stay inside the precomputed feasible lists). -/
theorem c2_capacity_all_allocators :
    (∀ (dist : Point → Point → ℚ) (sampler : Course → List Person)
      (courses : List Course) (rooms : List Room),
      (courses.map Course.id).Nodup →
      ∀ (m : Alloc) (rooms' : List Room),
      greedy_allocate dist sampler courses rooms = .ok (m, rooms') →
      ∀ c ∈ courses, ∀ rid, aGet m c.id = some rid →
        ∃ r ∈ rooms, r.id = rid ∧ c.size ≤ r.capacity) ∧
    (∀ (dist : Point → Point → ℚ) (sampler : Course → List Person)
      (allocation : Alloc) (courses : List Course) (rooms : RoomTable)
      (picks : ℕ → ℕ × ℕ) (max_iter : ℕ),
      (courses.map Course.id).Nodup → (∀ kv ∈ rooms, (kv.2).id = kv.1) →
      (∀ t, (picks t).1 < courses.length ∧ (picks t).2 < courses.length) →
      ∀ res, local_search dist sampler allocation courses rooms picks max_iter =
        .ok res →
      capOKL courses rooms allocation → capOKL courses rooms res.1) ∧
    (∀ (dist : Point → Point → ℚ) (sampler : Course → List Person)
      (oracle : GenOracle) (courses : List Course) (rooms : List Room)
      (pop_size generations : ℕ) (cr mr : ℚ),
      (courses.map Course.id).Nodup →
      ∀ m, genetic_allocate dist sampler oracle courses rooms pop_size generations
        cr mr = .ok m →
      ∀ c ∈ courses, ∀ rid, aGet m c.id = some rid →
        ∃ r ∈ rooms, r.id = rid ∧ c.size ≤ r.capacity) :=
  ⟨fun dist sampler courses rooms hnod m rooms' hok =>
      greedy_capacity dist sampler courses rooms hnod m rooms' hok,
   fun dist sampler allocation courses rooms picks max_iter hnodC hcoh hpick res
      hok hcap =>
      (local_search_master dist sampler allocation courses rooms picks max_iter
        hnodC hcoh hpick res hok).2.1 hcap,
   fun dist sampler oracle courses rooms pop_size generations cr mr hnod m hok =>
      genetic_capacity dist sampler oracle courses rooms pop_size generations cr mr
        hnod m hok⟩

/-- C2, witness: all three branches at concrete one-course instances — a
greedy run, a zero-iteration local-search run and a full genetic run. -/
theorem c2_capacity_all_allocators_witness :
    (∃ r ∈ [roomBig], r.id = "r" ∧ course1.size ≤ r.capacity) ∧
    capOKL [course1] [("r", roomBig)] ([("c", "r")],
      ([("r", roomBig)] : RoomTable)).1 ∧
    (∃ r ∈ [roomBig], r.id = "r" ∧ course1.size ≤ r.capacity) :=
  ⟨c2_capacity_all_allocators.1 distZero samplerNil [course1] [roomBig] (by decide)
      [("c", "r")] [⟨"r", 5, (0, 0), [(0, "c")]⟩] (by decide)
      course1 (by decide) "r" (by decide),
   c2_capacity_all_allocators.2.1 distZero samplerNil [("c", "r")] [course1]
      [("r", roomBig)] (fun _ => (0, 0)) 0 (by decide) (by decide)
      (by
        intro t
        show (0, 0).1 < [course1].length ∧ (0, 0).2 < [course1].length
        decide)
      ([("c", "r")], [("r", roomBig)]) (by decide)
      (by
        intro c hc rid hrid
        rcases List.mem_singleton.mp hc with rfl
        have hr : rid = "r" := Option.some.inj hrid.symm
        rw [hr]
        exact ⟨roomBig, rfl, by decide⟩),
   c2_capacity_all_allocators.2.2 distZero samplerNil oracleZero [course1] [roomBig]
      2 1 0 0 (by decide) [("c", "r")] (by decide) course1 (by decide) "r"
      (by decide)⟩

/-- C3: no double booking.  Greedy: in the returned mapping no two distinct
same-slot courses share a room.  Local search: the `noDouble` property of
the input allocation is preserved by the returned one. -/
theorem c3_no_double_booking :
    (∀ (dist : Point → Point → ℚ) (sampler : Course → List Person)
      (courses : List Course) (rooms : List Room),
      (courses.map Course.id).Nodup → (rooms.map Room.id).Nodup →
      ∀ (m : Alloc) (rooms' : List Room),
      greedy_allocate dist sampler courses rooms = .ok (m, rooms') →
      noDouble courses m) ∧
    (∀ (dist : Point → Point → ℚ) (sampler : Course → List Person)
      (allocation : Alloc) (courses : List Course) (rooms : RoomTable)
      (picks : ℕ → ℕ × ℕ) (max_iter : ℕ),
      (courses.map Course.id).Nodup → (∀ kv ∈ rooms, (kv.2).id = kv.1) →
      (∀ t, (picks t).1 < courses.length ∧ (picks t).2 < courses.length) →
      ∀ res, local_search dist sampler allocation courses rooms picks max_iter =
        .ok res →
      noDouble courses allocation → noDouble courses res.1) :=
  ⟨fun dist sampler courses rooms hnodC hnodR m rooms' hok =>
      greedy_no_double dist sampler courses rooms hnodC hnodR m rooms' hok,
   fun dist sampler allocation courses rooms picks max_iter hnodC hcoh hpick res
      hok hnd =>
      (local_search_master dist sampler allocation courses rooms picks max_iter
        hnodC hcoh hpick res hok).2.2.1 hnd⟩

/-- C3, witness: both branches at concrete one-course instances. -/
theorem c3_no_double_booking_witness :
    noDouble [course1] [("c", "r")] ∧
    noDouble [course1] ([("c", "r")], ([("r", roomBig)] : RoomTable)).1 :=
  ⟨c3_no_double_booking.1 distZero samplerNil [course1] [roomBig] (by decide)
      (by decide) [("c", "r")] [⟨"r", 5, (0, 0), [(0, "c")]⟩] (by decide),
   c3_no_double_booking.2 distZero samplerNil [("c", "r")] [course1]
      [("r", roomBig)] (fun _ => (0, 0)) 0 (by decide) (by decide)
      (by
        intro t
        show (0, 0).1 < [course1].length ∧ (0, 0).2 < [course1].length
        decide)
      ([("c", "r")], [("r", roomBig)]) (by decide)
      (by
        intro c1 h1 c2 h2 _ rid _ _
        rcases List.mem_singleton.mp h1 with rfl
        rcases List.mem_singleton.mp h2 with rfl
        rfl)⟩

/-- C10: an empty roster makes `travel_cost` fail with the division-by-zero
error (`k = 0`), and the failure propagates: `greedy_allocate` never
returns `ok` on a course list containing an empty-roster course, and
neither does `genetic_allocate` (its fitness evaluation fails on every
chromosome of the nonempty final population, and an empty final population
fails `min`). -/
theorem c10_empty_roster_propagation :
    (∀ (dist : Point → Point → ℚ) (sampler : Course → List Person)
      (course : Course) (room : Room), course.students = [] →
      travel_cost dist sampler course room = .error .divByZero) ∧
    (∀ (dist : Point → Point → ℚ) (sampler : Course → List Person)
      (courses : List Course) (rooms : List Room) (c : Course),
      c ∈ courses → c.students = [] →
      ∀ res, greedy_allocate dist sampler courses rooms ≠ .ok res) ∧
    (∀ (dist : Point → Point → ℚ) (sampler : Course → List Person)
      (oracle : GenOracle) (courses : List Course) (rooms : List Room)
      (pop_size generations : ℕ) (cr mr : ℚ) (c : Course),
      c ∈ courses → c.students = [] →
      ∀ m, genetic_allocate dist sampler oracle courses rooms pop_size generations
        cr mr ≠ .ok m) :=
  ⟨fun dist sampler course room hs => by simp [travel_cost, hs],
   fun dist sampler courses rooms c hc hs res =>
      greedyGo_empty_roster dist sampler c hs (sortBySizeDesc courses)
        ((sortByStable_perm _ courses).mem_iff.mpr hc) rooms [] res,
   fun dist sampler oracle courses rooms pop_size generations cr mr c hc hs m =>
      genetic_allocate_empty_roster dist sampler oracle courses rooms pop_size
        generations cr mr c hc hs m⟩

/-- C10, witness: the three branches at the concrete empty-roster course. -/
theorem c10_empty_roster_propagation_witness :
    travel_cost distZero samplerNil courseEmptyRoster roomBig = .error .divByZero ∧
    greedy_allocate distZero samplerNil [courseEmptyRoster] [roomBig] ≠
      .ok ([], [roomBig]) ∧
    genetic_allocate distZero samplerNil oracleZero [courseEmptyRoster] [roomBig]
      1 0 0 0 ≠ .ok [] :=
  ⟨c10_empty_roster_propagation.1 distZero samplerNil courseEmptyRoster roomBig rfl,
   c10_empty_roster_propagation.2.1 distZero samplerNil [courseEmptyRoster] [roomBig]
      courseEmptyRoster (by decide) rfl ([], [roomBig]),
   c10_empty_roster_propagation.2.2 distZero samplerNil oracleZero
      [courseEmptyRoster] [roomBig] 1 0 0 0 courseEmptyRoster (by decide) rfl []⟩

end ClassroomAllocation
